import Mathlib

/-
Verification development for the chapter-based temporal memory store
(`models/memory_unit.py`, `storage/simple_memory_store.py`,
`eval/consistency_eval.py`).

Python floats are modelled as rationals (ℚ), Python ints as ℤ, Python
`None`-able fields as `Option`, Python dicts as insertion-ordered
association lists (a Python dict preserves insertion order, assignment to
an existing key keeps its position, and iteration over `.values()` follows
that order).  `str(uuid.uuid4())` is modelled as an injective supply of
fresh identifiers drawn from a counter carried by the store.
-/

/-- Boolean lexicographic comparison of character lists by code point,
matching Python string comparison (`sorted` on `str`). -/
def charsLe : List Char → List Char → Bool
  | [], _ => true
  | _ :: _, [] => false
  | a :: as, b :: bs => if a < b then true else if b < a then false else charsLe as bs

/-- Boolean string comparison by code points, as used by Python `sorted`. -/
def strLeB (a b : String) : Bool := charsLe a.data b.data

/-- The ordering on strings used when sorting subject lists. -/
def strLeRel : String → String → Prop := fun a b => strLeB a b = true

instance : DecidableRel strLeRel := fun a b => inferInstanceAs (Decidable (strLeB a b = true))

/-- Python `needle in haystack` substring test. -/
def containsSubstr (needle haystack : String) : Bool :=
  haystack.data.tails.any (fun suf => needle.data.isPrefixOf suf)

/-- Python `str.lower()` (ASCII case folding suffices for the fixed lexica). -/
def strLower (s : String) : String := String.mk (s.data.map Char.toLower)

/-- Provenance record from `models/memory_unit.py` (`Provenance`).  The
`timestamp` default (`datetime.now`) is environment input, carried as data. -/
structure Provenance where
  chapter : Int
  source : String
  timestamp : String
deriving DecidableEq

/-- Fact record from `models/memory_unit.py` (`MemoryUnit`).  `attrs` values
(`Dict[str, Any]`) are modelled as strings; no operation inspects them. -/
structure MemoryUnit where
  id : String
  mem_type : String
  subjects : List String
  predicate : String
  object : String
  fact_text : String
  chapter_start : Int
  chapter_end : Option Int
  visibility : String
  confidence : ℚ
  is_active : Bool
  provenance : Provenance
  version : Int
  supersedes : Option String
  superseded_by : Option String
  update_reason : Option String
  update_confidence : Option ℚ
  embedding : Option (List ℚ)
  attrs : List (String × String)
deriving DecidableEq

/-- `MemoryUnit.get_key`: canonical key, the sorted subjects joined with
`::`, then the predicate and the object. -/
def MemoryUnit.get_key (self : MemoryUnit) : String :=
  String.intercalate "::" (List.insertionSort strLeRel self.subjects)
    ++ "::" ++ self.predicate ++ "::" ++ self.object

/-- `MemoryUnit.can_update`: the existing memory can be updated by the new
one iff the canonical keys agree, the existing memory is active, and the
new memory starts strictly later. -/
def MemoryUnit.can_update (self new_memory : MemoryUnit) : Bool :=
  if self.get_key ≠ new_memory.get_key then false
  else if self.is_active = false then false
  else if new_memory.chapter_start ≤ self.chapter_start then false
  else true

/-- `MemoryUnit.get_update_score`: 0 when `can_update` fails, otherwise
`0.3·confidence + min(0.2, 0.05·Δchapter) + 0.2·[conf ↑] + 0.1·[old]`,
capped at 1. -/
def MemoryUnit.get_update_score (self new_memory : MemoryUnit) : ℚ :=
  if ¬ self.can_update new_memory then 0
  else
    min 1 (new_memory.confidence * (3/10)
      + min (2/10) (((new_memory.chapter_start - self.chapter_start : Int) : ℚ) * (5/100))
      + (if self.confidence < new_memory.confidence then 2/10 else 0)
      + (if self.chapter_start < new_memory.chapter_start - 5 then 1/10 else 0))

/-- Fresh-identifier supply modelling `str(uuid.uuid4())`: injective, and
never collides with an identifier generated earlier. -/
def genId (n : Nat) : String := String.mk (List.replicate (n + 1) 'u')

/-- In-memory state of `SimpleMemoryStore`: the chapter index and the
id-keyed record table, both as insertion-ordered association lists, plus
the fresh-id counter. -/
structure SimpleMemoryStore where
  chapter_memories : List (Int × List MemoryUnit)
  all_memories : List (String × MemoryUnit)
  nextId : Nat
deriving DecidableEq

/-- The store holding no memories. -/
def emptyStore : SimpleMemoryStore := ⟨[], [], 0⟩

/-- Iteration over `self.all_memories.values()`. -/
def storeValues (s : SimpleMemoryStore) : List MemoryUnit := s.all_memories.map Prod.snd

/-- Python `self.all_memories[mid]` read access (`mid in self.all_memories`
guarded). -/
def lookupMemory (s : SimpleMemoryStore) (mid : String) : Option MemoryUnit :=
  (s.all_memories.find? (fun p => p.1 == mid)).map Prod.snd

/-- Python dict assignment `d[k] = v` on an association list: overwrite in
place when the key exists, else append. -/
def insertOrReplace (l : List (String × MemoryUnit)) (k : String) (v : MemoryUnit) :
    List (String × MemoryUnit) :=
  if l.any (fun p => p.1 == k) then l.map (fun p => if p.1 == k then (p.1, v) else p)
  else l ++ [(k, v)]

/-- In-place mutation of a `MemoryUnit` object aliased inside the store:
every occurrence (keyed entry or chapter-list entry) with the given id is
replaced by the mutated record. -/
def replaceValue (l : List (String × MemoryUnit)) (k : String) (v : MemoryUnit) :
    List (String × MemoryUnit) :=
  l.map (fun p => if p.1 == k then (p.1, v) else p)

/-- The same aliasing applied to the chapter index lists. -/
def replaceMemoryById (cm : List (Int × List MemoryUnit)) (mid : String) (v : MemoryUnit) :
    List (Int × List MemoryUnit) :=
  cm.map (fun e => (e.1, e.2.map (fun x => if x.id == mid then v else x)))

/-- `SimpleMemoryStore._add_memory_to_chapter`. -/
def addMemoryToChapter (cm : List (Int × List MemoryUnit)) (m : MemoryUnit) (chapter : Int) :
    List (Int × List MemoryUnit) :=
  if cm.any (fun e => e.1 == chapter) then
    cm.map (fun e => if e.1 == chapter then (e.1, e.2 ++ [m]) else e)
  else cm ++ [(chapter, [m])]

/-- `SimpleMemoryStore.add_new_memory`: assign a fresh id, stamp the
chapter onto `chapter_start` and the provenance, and index the record. -/
def SimpleMemoryStore.add_new_memory (s : SimpleMemoryStore) (memory : MemoryUnit)
    (chapter : Int) : SimpleMemoryStore × MemoryUnit :=
  let m : MemoryUnit :=
    { memory with
      id := genId s.nextId
      chapter_start := chapter
      provenance := { memory.provenance with chapter := chapter } }
  ({ chapter_memories := addMemoryToChapter s.chapter_memories m chapter
     all_memories := insertOrReplace s.all_memories m.id m
     nextId := s.nextId + 1 }, m)

/-- `SimpleMemoryStore.find_all_candidate_memories`: every stored record
with the candidate's canonical key that `can_update` accepts. -/
def SimpleMemoryStore.find_all_candidate_memories (s : SimpleMemoryStore)
    (memory : MemoryUnit) : List MemoryUnit :=
  (storeValues s).filter (fun existing =>
    existing.get_key == memory.get_key && existing.can_update memory)

/-- One step of Python `max(..., key=lambda x: x[1])`: the running best is
replaced only on a strictly larger score, so the first maximal element of
the scored list wins. -/
def pickMax (best x : MemoryUnit × ℚ) : MemoryUnit × ℚ := if best.2 < x.2 then x else best

/-- `SimpleMemoryStore.find_best_update_candidate`: score the candidates,
drop those under `min_score`, and return the (first) highest-scoring one.
The early `return None` on an empty candidate list coincides with the
empty scored list. -/
def SimpleMemoryStore.find_best_update_candidate (s : SimpleMemoryStore) (memory : MemoryUnit)
    (min_score : ℚ) : Option (MemoryUnit × ℚ) :=
  match ((s.find_all_candidate_memories memory).map
      (fun c => (c, c.get_update_score memory))).filter (fun p => min_score ≤ p.2) with
  | [] => none
  | first :: rest => some (rest.foldl pickMax first)

/-- Record-level effect of `SimpleMemoryStore.update_existing_memory`
(lines 96–125): the pair (mutated predecessor, created successor).  The
throwaway uuid first written to `superseded_by` is overwritten by the new
record's id before the function returns, so only the final id appears. -/
def supersedeRecords (existing_memory new_info : MemoryUnit) (chapter : Int)
    (update_reason : String) (freshId : String) : MemoryUnit × MemoryUnit :=
  let updated : MemoryUnit :=
    { id := freshId
      mem_type := existing_memory.mem_type
      subjects := existing_memory.subjects
      predicate := existing_memory.predicate
      object := existing_memory.object
      fact_text := new_info.fact_text
      chapter_start := chapter
      chapter_end := none
      visibility := existing_memory.visibility
      confidence := new_info.confidence
      is_active := true
      provenance := new_info.provenance
      version := existing_memory.version + 1
      supersedes := some existing_memory.id
      superseded_by := none
      update_reason := some update_reason
      update_confidence := some new_info.confidence
      embedding := none
      attrs := existing_memory.attrs }
  ({ existing_memory with
      is_active := false
      chapter_end := some (chapter - 1)
      superseded_by := some updated.id }, updated)

/-- `SimpleMemoryStore.update_existing_memory`: mutate the superseded
record in place (aliased in both indexes) and insert the successor. -/
def SimpleMemoryStore.update_existing_memory (s : SimpleMemoryStore)
    (existing_memory new_info : MemoryUnit) (chapter : Int) (update_reason : String) :
    SimpleMemoryStore × MemoryUnit :=
  let p := supersedeRecords existing_memory new_info chapter update_reason (genId s.nextId)
  ({ chapter_memories :=
       addMemoryToChapter (replaceMemoryById s.chapter_memories existing_memory.id p.1)
         p.2 chapter
     all_memories := insertOrReplace (replaceValue s.all_memories existing_memory.id p.1)
       p.2.id p.2
     nextId := s.nextId + 1 }, p.2)

/-- Outcome of `smart_update_or_create`; the Python return tags
`"updated_existing_score_{score:.2f}"` and `"created_new"` are modelled as
the two constructors. -/
inductive SmartResult where
  | updated (memory : MemoryUnit) (score : ℚ)
  | created (memory : MemoryUnit)
deriving DecidableEq

/-- `SimpleMemoryStore.smart_update_or_create` (default threshold 0.6):
supersede the best-scoring candidate when one clears the threshold,
otherwise create a new record. -/
def SimpleMemoryStore.smart_update_or_create (s : SimpleMemoryStore) (memory : MemoryUnit)
    (chapter : Int) (update_threshold : ℚ) : SimpleMemoryStore × SmartResult :=
  match s.find_best_update_candidate memory update_threshold with
  | some (existing_memory, score) =>
    let update_reason :=
      if (4/5 : ℚ) < score then "high_confidence_update"
      else if (3/5 : ℚ) < score then "moderate_update"
      else "low_confidence_update"
    let r := s.update_existing_memory existing_memory memory chapter update_reason
    (r.1, SmartResult.updated r.2 score)
  | none =>
    let r := s.add_new_memory memory chapter
    (r.1, SmartResult.created r.2)

/-- A batch of resolver operations applied in sequence, each one a call
`smart_update_or_create(memory, chapter, update_threshold)`. -/
def runOps (ops : List (MemoryUnit × Int × ℚ)) (s : SimpleMemoryStore) : SimpleMemoryStore :=
  ops.foldl (fun st op => (st.smart_update_or_create op.1 op.2.1 op.2.2).1) s

/-- Loop body of `SimpleMemoryStore.get_memory_evolution`, made total with
a fuel parameter: `none` means the fuel ran out with the `while` loop
still running.  A missing id silently ends the walk, exactly as the
Python `break` does. -/
def evolutionAux (s : SimpleMemoryStore) :
    Nat → Option String → List MemoryUnit → Option (List MemoryUnit)
  | 0, _, _ => none
  | _ + 1, none, acc => some acc
  | fuel + 1, some cid, acc =>
    match lookupMemory s cid with
    | some m => evolutionAux s fuel m.supersedes (m :: acc)
    | none => some acc

/-- `SimpleMemoryStore.get_memory_evolution` with explicit fuel. -/
def SimpleMemoryStore.get_memory_evolution (s : SimpleMemoryStore) (fuel : Nat)
    (memory_id : String) : Option (List MemoryUnit) :=
  evolutionAux s fuel (some memory_id) []

/-- The chapter numbers `range(1, chapter + 1)` iterated by
`get_memories_at_chapter`. -/
def chapterRange (chapter : Int) : List Int :=
  (List.range chapter.toNat).map (fun (i : Nat) => (i : Int) + 1)

/-- `SimpleMemoryStore.get_memories_at_chapter`: aggregate the chapter
index over chapters 1..c, keeping the active records whose window is
still open at `c`. -/
def SimpleMemoryStore.get_memories_at_chapter (s : SimpleMemoryStore) (chapter : Int) :
    List MemoryUnit :=
  (chapterRange chapter).flatMap (fun ch =>
    match s.chapter_memories.find? (fun e => e.1 == ch) with
    | some e =>
      e.2.filter (fun m =>
        m.is_active && (match m.chapter_end with
          | none => true
          | some ce => chapter ≤ ce))
    | none => [])

/-- Futurity lexicon of `check_world_future_leaks`. -/
def future_indicators : List String :=
  ["will", "going to", "plan to", "intend to", "future", "upcoming",
   "next week", "next month", "next year", "tomorrow", "later"]

/-- One report of `check_world_future_leaks`; the constant `type` and the
formatted `description` fields are omitted. -/
structure LeakViolation where
  memory_id : String
  canonical_key : String
  chapter : Int
  fact_text : String
  future_indicator : String
deriving DecidableEq

/-- First futurity marker contained in the lowercased fact text; the
Python loop appends one report and `break`s on the first hit. -/
def firstFutureIndicator (m : MemoryUnit) : Option String :=
  future_indicators.find? (fun ind => containsSubstr ind (strLower m.fact_text))

/-- Loop body of `check_world_future_leaks` for one record: the appended
reports (one or none). -/
def leakEntry (m : MemoryUnit) : List LeakViolation :=
  if m.mem_type == "WM" && m.is_active then
    match firstFutureIndicator m with
    | some ind => [⟨m.id, m.get_key, m.chapter_start, m.fact_text, ind⟩]
    | none => []
  else []

/-- `check_world_future_leaks`: one report per active `WM` record whose
text contains a futurity marker, tagged with the first matching marker. -/
def check_world_future_leaks (s : SimpleMemoryStore) : List LeakViolation :=
  (storeValues s).flatMap leakEntry

/-- Asymmetric-relation lexicon of `check_symmetry_violations`. -/
def asymmetric_indicators : List String :=
  ["likes", "hates", "loves", "dislikes", "admires", "despises",
   "trusts", "distrusts", "respects", "disrespects"]

/-- One bucket of the `relationships` dict: the `"c1::c2"` key built from
the sorted subject pair, the pair itself (recovered in Python by
`rel_key.split("::")`, identical to the sorted pair for `::`-free subject
names), and the appended records. -/
structure RelGroup where
  key : String
  char1 : String
  char2 : String
  mems : List MemoryUnit
deriving DecidableEq

/-- Sorted two-subject pair `char1, char2 = sorted(memory.subjects)`; the
grouping guard guarantees exactly two subjects, so the catch-all branch is
unreachable there. -/
def relPairOf (m : MemoryUnit) : String × String :=
  match List.insertionSort strLeRel m.subjects with
  | [c1, c2] => (c1, c2)
  | _ => ("", "")

/-- The `"c1::c2"` relationship key of a record. -/
def relKeyOf (m : MemoryUnit) : String := (relPairOf m).1 ++ "::" ++ (relPairOf m).2

/-- Guard selecting the records grouped by `check_symmetry_violations`:
active `IC` records with exactly two subjects. -/
def isICPair (m : MemoryUnit) : Bool :=
  m.mem_type == "IC" && m.is_active && m.subjects.length == 2

/-- Dict insert-or-append for the `relationships` map. -/
def insertRel (gs : List RelGroup) (k c1 c2 : String) (m : MemoryUnit) : List RelGroup :=
  match gs with
  | [] => [⟨k, c1, c2, [m]⟩]
  | g :: rest =>
    if g.key = k then ⟨g.key, g.char1, g.char2, g.mems ++ [m]⟩ :: rest
    else g :: insertRel rest k c1 c2 m

/-- The `relationships` dict of `check_symmetry_violations`, in insertion
order. -/
def buildRelationships (mems : List MemoryUnit) : List RelGroup :=
  mems.foldl (fun gs m =>
    if isICPair m then insertRel gs (relKeyOf m) (relPairOf m).1 (relPairOf m).2 m
    else gs) []

/-- One report of `check_symmetry_violations`; constant and formatted
fields omitted. -/
structure SymViolation where
  memory_id : String
  relationship_key : String
  character1 : String
  character2 : String
  fact_text : String
  asymmetric_indicator : String
deriving DecidableEq

/-- First asymmetric term contained in the lowercased fact text (the
Python loop `break`s after the first hit, whether or not it reported). -/
def firstAsymIndicator (m : MemoryUnit) : Option String :=
  asymmetric_indicators.find? (fun ind => containsSubstr ind (strLower m.fact_text))

/-- Loop body of `check_symmetry_violations` for one bucket of the
`relationships` dict (`groups` is the whole dict, consulted for the
reversed key). -/
def symEntry (groups : List RelGroup) (g : RelGroup) : List SymViolation :=
  match g.mems with
  | [m] =>
    match firstAsymIndicator m with
    | some ind =>
      if groups.any (fun g2 => g2.key == g.char2 ++ "::" ++ g.char1) then []
      else [⟨m.id, g.key, g.char1, g.char2, m.fact_text, ind⟩]
    | none => []
  | _ => []

/-- `check_symmetry_violations`: for every single-record pair bucket whose
record carries an asymmetric term, report it unless the reversed key owns
a bucket. -/
def check_symmetry_violations (s : SimpleMemoryStore) : List SymViolation :=
  let groups := buildRelationships (storeValues s)
  groups.flatMap (symEntry groups)

lemma charsLe_cons (a b : Char) (as bs : List Char) :
    charsLe (a :: as) (b :: bs) = true ↔ (a < b ∨ (a = b ∧ charsLe as bs = true)) := by
  rcases lt_trichotomy a b with h | h | h
  · simp [charsLe, h]
  · subst h
    simp [charsLe, lt_irrefl]
  · have h1 : ¬ a < b := not_lt.mpr (le_of_lt h)
    have h2 : a ≠ b := (ne_of_lt h).symm
    simp [charsLe, h1, h, h2]

lemma charsLe_total : ∀ as bs : List Char, charsLe as bs = true ∨ charsLe bs as = true := by
  intro as
  induction as with
  | nil => intro bs; left; rfl
  | cons a as ih =>
    intro bs
    cases bs with
    | nil => right; rfl
    | cons b bs =>
      rcases lt_trichotomy a b with h | h | h
      · left; rw [charsLe_cons]; exact Or.inl h
      · subst h
        rcases ih bs with h | h
        · left; rw [charsLe_cons]; exact Or.inr ⟨rfl, h⟩
        · right; rw [charsLe_cons]; exact Or.inr ⟨rfl, h⟩
      · right; rw [charsLe_cons]; exact Or.inl h

lemma charsLe_trans : ∀ as bs cs : List Char,
    charsLe as bs = true → charsLe bs cs = true → charsLe as cs = true := by
  intro as
  induction as with
  | nil => intro bs cs _ _; rfl
  | cons a as ih =>
    intro bs cs h1 h2
    cases bs with
    | nil => simp [charsLe] at h1
    | cons b bs =>
      cases cs with
      | nil => simp [charsLe] at h2
      | cons c cs =>
        rw [charsLe_cons] at h1 h2 ⊢
        rcases h1 with h1 | ⟨rfl, h1⟩
        · rcases h2 with h2 | ⟨rfl, h2⟩
          · exact Or.inl (lt_trans h1 h2)
          · exact Or.inl h1
        · rcases h2 with h2 | ⟨rfl, h2⟩
          · exact Or.inl h2
          · exact Or.inr ⟨rfl, ih bs cs h1 h2⟩

lemma charsLe_antisymm : ∀ as bs : List Char,
    charsLe as bs = true → charsLe bs as = true → as = bs := by
  intro as
  induction as with
  | nil =>
    intro bs _ h2
    cases bs with
    | nil => rfl
    | cons b bs => simp [charsLe] at h2
  | cons a as ih =>
    intro bs h1 h2
    cases bs with
    | nil => simp [charsLe] at h1
    | cons b bs =>
      rw [charsLe_cons] at h1 h2
      rcases h1 with h1 | ⟨rfl, h1⟩
      · rcases h2 with h2 | ⟨h2, _⟩
        · exact absurd (lt_trans h1 h2) (lt_irrefl a)
        · exact absurd h1 (by simp [h2])
      · rcases h2 with h2 | ⟨_, h2⟩
        · exact absurd h2 (lt_irrefl a)
        · rw [ih bs h1 h2]

instance : IsTotal String strLeRel := ⟨fun a b => charsLe_total a.data b.data⟩

instance : IsTrans String strLeRel := ⟨fun a b c => charsLe_trans a.data b.data c.data⟩

instance : IsAntisymm String strLeRel :=
  ⟨fun a b h1 h2 => by
    have h := charsLe_antisymm a.data b.data h1 h2
    cases a; cases b; exact congrArg String.mk h⟩

lemma insertionSort_perm_congr {l1 l2 : List String} (h : List.Perm l1 l2) :
    List.insertionSort strLeRel l1 = List.insertionSort strLeRel l2 :=
  List.eq_of_perm_of_sorted
    ((List.perm_insertionSort _ _).trans (h.trans (List.perm_insertionSort _ _).symm))
    (List.sorted_insertionSort _ _) (List.sorted_insertionSort _ _)

/-- C8: the canonical key ignores subject order — two records whose
subject lists are permutations of each other and that share predicate and
object have equal canonical keys, because `get_key` joins the sorted
subjects with the predicate and the object. -/
theorem canonical_key_ignores_subject_order (m1 m2 : MemoryUnit)
    (hs : List.Perm m1.subjects m2.subjects)
    (hp : m1.predicate = m2.predicate) (ho : m1.object = m2.object) :
    m1.get_key = m2.get_key := by
  unfold MemoryUnit.get_key
  rw [hp, ho, insertionSort_perm_congr hs]

/-- Provenance literal used in concrete instances. -/
def provStory : Provenance := ⟨1, "story", "t0"⟩

/-- Concrete record with subjects `["b", "a"]`. -/
def recBA : MemoryUnit :=
  { id := "r1", mem_type := "IC", subjects := ["b", "a"], predicate := "p", object := "o",
    fact_text := "x", chapter_start := 1, chapter_end := none, visibility := "shared",
    confidence := 1, is_active := true, provenance := provStory, version := 1,
    supersedes := none, superseded_by := none, update_reason := none,
    update_confidence := none, embedding := none, attrs := [] }

/-- Concrete record with subjects `["a", "b"]`. -/
def recAB : MemoryUnit := { recBA with subjects := ["a", "b"] }

/-- Witness for C8 at `key(["b","a"],p,o) == key(["a","b"],p,o)`. -/
theorem canonical_key_ignores_subject_order_witness : recBA.get_key = recAB.get_key :=
  canonical_key_ignores_subject_order recBA recAB (by decide) rfl rfl

/-- C1: after `update_existing_memory(existing, new_info, c)` the
superseded record is inactive, its window closes at `c - 1`, and it points
at the new record, while the new record points back, carries
`version + 1`, opens at `c` with an open window, is active, and keeps the
candidate's text, confidence and provenance. -/
theorem supersession_effect (s : SimpleMemoryStore) (existing new_info : MemoryUnit)
    (chapter : Int) (reason : String) :
    (supersedeRecords existing new_info chapter reason (genId s.nextId)).1.is_active = false ∧
    (supersedeRecords existing new_info chapter reason (genId s.nextId)).1.chapter_end
      = some (chapter - 1) ∧
    (supersedeRecords existing new_info chapter reason (genId s.nextId)).1.superseded_by
      = some (s.update_existing_memory existing new_info chapter reason).2.id ∧
    (s.update_existing_memory existing new_info chapter reason).2.supersedes
      = some existing.id ∧
    (s.update_existing_memory existing new_info chapter reason).2.version
      = existing.version + 1 ∧
    (s.update_existing_memory existing new_info chapter reason).2.chapter_start = chapter ∧
    (s.update_existing_memory existing new_info chapter reason).2.chapter_end = none ∧
    (s.update_existing_memory existing new_info chapter reason).2.is_active = true ∧
    (s.update_existing_memory existing new_info chapter reason).2.fact_text
      = new_info.fact_text ∧
    (s.update_existing_memory existing new_info chapter reason).2.confidence
      = new_info.confidence ∧
    (s.update_existing_memory existing new_info chapter reason).2.provenance
      = new_info.provenance :=
  ⟨rfl, rfl, rfl, rfl, rfl, rfl, rfl, rfl, rfl, rfl, rfl⟩

/-- C10: the record created by `update_existing_memory` copies the
superseded record's `mem_type`, `subjects`, `predicate`, `object`,
`visibility` and `attrs` — hence its canonical key — and takes only
`fact_text`, `confidence` and `provenance` from the candidate, so a
version chain never leaves its canonical key. -/
theorem supersession_preserves_canonical_key (s : SimpleMemoryStore)
    (existing new_info : MemoryUnit) (chapter : Int) (reason : String) :
    (s.update_existing_memory existing new_info chapter reason).2.get_key
      = existing.get_key ∧
    (s.update_existing_memory existing new_info chapter reason).2.mem_type
      = existing.mem_type ∧
    (s.update_existing_memory existing new_info chapter reason).2.subjects
      = existing.subjects ∧
    (s.update_existing_memory existing new_info chapter reason).2.predicate
      = existing.predicate ∧
    (s.update_existing_memory existing new_info chapter reason).2.object
      = existing.object ∧
    (s.update_existing_memory existing new_info chapter reason).2.visibility
      = existing.visibility ∧
    (s.update_existing_memory existing new_info chapter reason).2.attrs = existing.attrs ∧
    (s.update_existing_memory existing new_info chapter reason).2.fact_text
      = new_info.fact_text ∧
    (s.update_existing_memory existing new_info chapter reason).2.confidence
      = new_info.confidence ∧
    (s.update_existing_memory existing new_info chapter reason).2.provenance
      = new_info.provenance :=
  ⟨rfl, rfl, rfl, rfl, rfl, rfl, rfl, rfl, rfl, rfl⟩

lemma mem_chapterRange (c x : Int) : x ∈ chapterRange c ↔ 1 ≤ x ∧ x ≤ c := by
  unfold chapterRange
  constructor
  · intro h
    obtain ⟨i, hi, hx⟩ := List.mem_map.mp h
    have hi2 : i < c.toNat := List.mem_range.mp hi
    have hx2 : (i : Int) + 1 = x := hx
    omega
  · rintro ⟨h1, h2⟩
    refine List.mem_map.mpr ⟨(x - 1).toNat, List.mem_range.mpr (by omega), ?_⟩
    show ((x - 1).toNat : Int) + 1 = x
    omega

lemma find?_key_nodup {α : Type} [DecidableEq α] {β : Type} :
    ∀ {l : List (α × β)}, (l.map Prod.fst).Nodup → ∀ {e : α × β}, e ∈ l →
      l.find? (fun x => x.1 == e.1) = some e := by
  intro l
  induction l with
  | nil => intro _ e he; cases he
  | cons x xs ih =>
    intro hnd e he
    rw [List.map_cons, List.nodup_cons] at hnd
    rcases List.mem_cons.mp he with rfl | hmem
    · simp [List.find?]
    · have hne : x.1 ≠ e.1 := by
        intro heq
        exact hnd.1 (heq ▸ List.mem_map_of_mem Prod.fst hmem)
      have : (x.1 == e.1) = false := beq_false_of_ne hne
      simp [List.find?, this, ih hnd.2 hmem]

lemma mem_window_filter (c : Int) (lst : List MemoryUnit) (m : MemoryUnit) :
    m ∈ lst.filter (fun x => x.is_active &&
        (match x.chapter_end with | none => true | some ce => c ≤ ce)) ↔
      m ∈ lst ∧ m.is_active = true ∧
        (m.chapter_end = none ∨ ∃ ce, m.chapter_end = some ce ∧ c ≤ ce) := by
  rw [List.mem_filter]
  cases hce : m.chapter_end with
  | none => simp [hce]
  | some ce => simp [hce]

/-- C2: on a store whose chapter index is consistent (every indexed record
sits under its own `chapter_start`, chapter keys are distinct and at least
1 — which is how every store method populates the index),
`get_memories_at_chapter c` returns exactly the indexed records that are
active, start no later than `c` and whose window is still open at `c`; in
particular it never returns a record with `chapter_start > c` nor one
with a set `chapter_end < c`, and it aggregates chapters 1 through `c`. -/
theorem query_at_chapter_window (s : SimpleMemoryStore)
    (hidx : ∀ e ∈ s.chapter_memories, ∀ m ∈ e.2, m.chapter_start = e.1)
    (hnodup : (s.chapter_memories.map Prod.fst).Nodup)
    (hpos : ∀ e ∈ s.chapter_memories, 1 ≤ e.1)
    (c : Int) (m : MemoryUnit) :
    m ∈ s.get_memories_at_chapter c ↔
      ((∃ e ∈ s.chapter_memories, m ∈ e.2) ∧ m.is_active = true ∧ m.chapter_start ≤ c ∧
        (m.chapter_end = none ∨ ∃ ce, m.chapter_end = some ce ∧ c ≤ ce)) := by
  unfold SimpleMemoryStore.get_memories_at_chapter
  rw [List.mem_flatMap]
  constructor
  · rintro ⟨ch, hch, hm⟩
    cases hfind : s.chapter_memories.find? (fun e => e.1 == ch) with
    | none => rw [hfind] at hm; cases hm
    | some e =>
      rw [hfind] at hm
      have hkey : e.1 = ch := by
        have := List.find?_some hfind
        exact eq_of_beq this
      have hemem : e ∈ s.chapter_memories := List.mem_of_find?_eq_some hfind
      rcases (mem_window_filter c e.2 m).mp hm with ⟨hmem, hact, hend⟩
      have hcs : m.chapter_start = ch := hkey ▸ hidx e hemem m hmem
      have hchr := (mem_chapterRange c ch).mp hch
      exact ⟨⟨e, hemem, hmem⟩, hact, by omega, hend⟩
  · rintro ⟨⟨e, hemem, hmem⟩, hact, hcs, hend⟩
    refine ⟨e.1, ?_, ?_⟩
    · rw [mem_chapterRange]
      have := hidx e hemem m hmem
      have := hpos e hemem
      omega
    · rw [find?_key_nodup hnodup hemem]
      exact (mem_window_filter c e.2 m).mpr ⟨hmem, hact, hend⟩

/-- Record used by the C2 witness: active, open window, `chapter_start`
2. -/
def recQuery : MemoryUnit := { recBA with id := "q1", chapter_start := 2 }

/-- Store used by the C2 witness, indexing `recQuery` under chapter 2. -/
def storeQuery : SimpleMemoryStore :=
  ⟨[(2, [recQuery])], [("q1", recQuery)], 0⟩

/-- Witness for C2: the record indexed at chapter 2 is returned when
querying chapter 5. -/
theorem query_at_chapter_window_witness :
    recQuery ∈ storeQuery.get_memories_at_chapter 5 :=
  (query_at_chapter_window storeQuery (by decide) (by decide) (by decide) 5 recQuery).mpr
    ⟨⟨(2, [recQuery]), by decide, by decide⟩, rfl, by decide, Or.inl rfl⟩

/-- Record `"a"` of the cyclic chain: it claims to supersede `"b"`. -/
def memA : MemoryUnit := { recBA with id := "a", supersedes := some "b" }

/-- Record `"b"` of the cyclic chain: it claims to supersede `"a"`. -/
def memB : MemoryUnit := { recBA with id := "b", supersedes := some "a" }

/-- A loadable store state whose `supersedes` pointers form a two-cycle. -/
def cycStore : SimpleMemoryStore := ⟨[], [("a", memA), ("b", memB)], 0⟩

/-- Record whose `supersedes` pointer targets an id absent from the
store. -/
def memD : MemoryUnit := { recBA with id := "d", supersedes := some "ghost" }

/-- A store state with a dangling `supersedes` reference. -/
def dangStore : SimpleMemoryStore := ⟨[], [("d", memD)], 0⟩

lemma cycStore_loops : ∀ fuel : Nat, ∀ acc : List MemoryUnit,
    evolutionAux cycStore fuel (some "a") acc = none ∧
    evolutionAux cycStore fuel (some "b") acc = none := by
  intro fuel
  induction fuel with
  | zero => intro acc; exact ⟨rfl, rfl⟩
  | succ n ih =>
    intro acc
    constructor
    · have hl : lookupMemory cycStore "a" = some memA := rfl
      have hs : memA.supersedes = some "b" := rfl
      simp only [evolutionAux, hl, hs]
      exact (ih (memA :: acc)).2
    · have hl : lookupMemory cycStore "b" = some memB := rfl
      have hs : memB.supersedes = some "a" := rfl
      simp only [evolutionAux, hl, hs]
      exact (ih (memB :: acc)).1

/-- C4 fails on the code (code bug): `get_memory_evolution` keeps no
visited set, so on a store whose `supersedes` pointers form a cycle the
`while` loop never terminates (no fuel bound ever completes it, and no
`ChainCycleError` exists anywhere in the code), and a dangling
`supersedes` pointer silently truncates the returned chain instead of
failing with a `DanglingReferenceError`. -/
theorem evolution_chain_nontermination :
    (∀ fuel : Nat, cycStore.get_memory_evolution fuel "a" = none) ∧
    dangStore.get_memory_evolution 10 "d" = some [memD] :=
  ⟨fun fuel => (cycStore_loops fuel []).1, rfl⟩

lemma find?_first {α : Type} (p : α → Bool) :
    ∀ (l : List α) (x : α), l.find? p = some x ↔
      ∃ l1 l2, l = l1 ++ x :: l2 ∧ p x = true ∧ ∀ y ∈ l1, p y = false := by
  intro l
  induction l with
  | nil => intro x; simp
  | cons a l ih =>
    intro x
    by_cases hpa : p a = true
    · rw [List.find?_cons_of_pos _ hpa]
      constructor
      · intro h
        injection h with h
        subst h
        exact ⟨[], l, rfl, hpa, by simp⟩
      · rintro ⟨l1, l2, heq, hpx, hall⟩
        cases l1 with
        | nil =>
          simp only [List.nil_append, List.cons.injEq] at heq
          rw [heq.1]
        | cons b l1 =>
          simp only [List.cons_append, List.cons.injEq] at heq
          exact absurd (heq.1 ▸ hall b (by simp)) (by simp [hpa])
    · rw [List.find?_cons_of_neg _ hpa, ih]
      constructor
      · rintro ⟨l1, l2, rfl, hpx, hall⟩
        refine ⟨a :: l1, l2, rfl, hpx, ?_⟩
        intro y hy
        rcases List.mem_cons.mp hy with rfl | hy
        · exact Bool.not_eq_true _ ▸ by simpa using hpa
        · exact hall y hy
      · rintro ⟨l1, l2, heq, hpx, hall⟩
        cases l1 with
        | nil =>
          simp only [List.nil_append, List.cons.injEq] at heq
          exact absurd (heq.1 ▸ hpx) hpa
        | cons b l1 =>
          simp only [List.cons_append, List.cons.injEq] at heq
          exact ⟨l1, l2, heq.2, hpx, fun y hy => hall y (by simp [hy])⟩

lemma leakEntry_id {m : MemoryUnit} {v : LeakViolation} (hv : v ∈ leakEntry m) :
    v.memory_id = m.id := by
  unfold leakEntry at hv
  by_cases hg : (m.mem_type == "WM" && m.is_active) = true
  · rw [if_pos hg] at hv
    cases hfi : firstFutureIndicator m with
    | none => rw [hfi] at hv; cases hv
    | some ind =>
      rw [hfi] at hv
      rw [List.mem_singleton.mp hv]
  · rw [if_neg hg] at hv; cases hv

lemma mem_leakEntry (m : MemoryUnit) (v : LeakViolation) :
    v ∈ leakEntry m ↔
      (m.mem_type = "WM" ∧ m.is_active = true ∧ ∃ ind, firstFutureIndicator m = some ind ∧
        v = ⟨m.id, m.get_key, m.chapter_start, m.fact_text, ind⟩) := by
  unfold leakEntry
  by_cases hg : (m.mem_type == "WM" && m.is_active) = true
  · have hw : m.mem_type = "WM" := eq_of_beq (Bool.and_eq_true_iff.mp hg).1
    have ha : m.is_active = true := (Bool.and_eq_true_iff.mp hg).2
    rw [if_pos hg]
    cases hfi : firstFutureIndicator m with
    | none => simp [hfi, hw, ha]
    | some ind =>
      simp only [hfi, List.mem_singleton, hw, ha, true_and, Option.some.injEq]
      constructor
      · rintro rfl
        exact ⟨ind, rfl, rfl⟩
      · rintro ⟨ind2, rfl, rfl⟩
        rfl
  · rw [if_neg hg]
    simp only [List.not_mem_nil, false_iff]
    rintro ⟨hw, ha, -⟩
    exact hg (by simp [hw, ha])

lemma leakEntry_length (m : MemoryUnit) :
    (leakEntry m).length =
      if m.mem_type = "WM" ∧ m.is_active = true ∧ (firstFutureIndicator m).isSome = true
      then 1 else 0 := by
  unfold leakEntry
  by_cases hg : (m.mem_type == "WM" && m.is_active) = true
  · have hw : m.mem_type = "WM" := eq_of_beq (Bool.and_eq_true_iff.mp hg).1
    have ha : m.is_active = true := (Bool.and_eq_true_iff.mp hg).2
    rw [if_pos hg]
    cases hfi : firstFutureIndicator m with
    | none => simp [hfi, hw, ha]
    | some ind => simp [hfi, hw, ha]
  · rw [if_neg hg]
    have : ¬ (m.mem_type = "WM" ∧ m.is_active = true ∧
        (firstFutureIndicator m).isSome = true) := by
      rintro ⟨hw, ha, -⟩
      exact hg (by simp [hw, ha])
    simp [this]

lemma leaks_filter_other : ∀ (l : List MemoryUnit) (mid : String), (∀ y ∈ l, y.id ≠ mid) →
    (l.flatMap leakEntry).filter (fun v => v.memory_id == mid) = [] := by
  intro l
  induction l with
  | nil => intro mid _; rfl
  | cons x l ih =>
    intro mid hne
    rw [List.flatMap_cons, List.filter_append, ih mid (fun y hy => hne y (by simp [hy])),
      List.append_nil]
    rw [List.filter_eq_nil_iff]
    intro v hv
    have : v.memory_id = x.id := leakEntry_id hv
    simp [this, hne x (by simp)]

lemma leaks_count : ∀ (l : List MemoryUnit) (m : MemoryUnit),
    (l.map MemoryUnit.id).Nodup → m ∈ l →
    ((l.flatMap leakEntry).filter (fun v => v.memory_id == m.id)).length =
      if m.mem_type = "WM" ∧ m.is_active = true ∧ (firstFutureIndicator m).isSome = true
      then 1 else 0 := by
  intro l
  induction l with
  | nil => intro m _ hm; cases hm
  | cons x l ih =>
    intro m hnd hm
    rw [List.map_cons, List.nodup_cons] at hnd
    rw [List.flatMap_cons, List.filter_append, List.length_append]
    rcases List.mem_cons.mp hm with rfl | hm
    · have h1 : (leakEntry m).filter (fun v => v.memory_id == m.id) = leakEntry m := by
        rw [List.filter_eq_self]
        intro v hv
        simp [leakEntry_id hv]
      have h2 : (l.flatMap leakEntry).filter (fun v => v.memory_id == m.id) = [] := by
        refine leaks_filter_other l m.id (fun y hy hid => hnd.1 ?_)
        rw [← hid]
        exact List.mem_map_of_mem MemoryUnit.id hy
      rw [h1, h2]
      simp [leakEntry_length]
    · have h1 : (leakEntry x).filter (fun v => v.memory_id == m.id) = [] := by
        rw [List.filter_eq_nil_iff]
        intro v hv
        have hxm : x.id ≠ m.id := by
          intro hid
          exact hnd.1 (hid ▸ List.mem_map_of_mem MemoryUnit.id hm)
        simp [leakEntry_id hv, hxm]
      rw [h1]
      simpa using ih m hnd.2 hm

/-- C7: a leak report exists exactly for the active `WM` records whose
lowercased text contains a futurity marker; each such record yields
exactly one report (under distinct ids), attributed to the first marker
of the fixed lexicon that occurs in the text; inactive, non-`WM` or
marker-free records yield none. -/
theorem world_future_leak_reports (s : SimpleMemoryStore)
    (hids : ((storeValues s).map MemoryUnit.id).Nodup) :
    (∀ v, v ∈ check_world_future_leaks s ↔
      ∃ m ∈ storeValues s, m.mem_type = "WM" ∧ m.is_active = true ∧
        ∃ ind, firstFutureIndicator m = some ind ∧
          v = ⟨m.id, m.get_key, m.chapter_start, m.fact_text, ind⟩) ∧
    (∀ m ∈ storeValues s,
      ((check_world_future_leaks s).filter (fun v => v.memory_id == m.id)).length =
        if m.mem_type = "WM" ∧ m.is_active = true ∧ (firstFutureIndicator m).isSome = true
        then 1 else 0) ∧
    (∀ (m : MemoryUnit) (ind : String), firstFutureIndicator m = some ind →
      ∃ l1 l2, future_indicators = l1 ++ ind :: l2 ∧
        containsSubstr ind (strLower m.fact_text) = true ∧
        ∀ ind2 ∈ l1, containsSubstr ind2 (strLower m.fact_text) = false) := by
  refine ⟨?_, ?_, ?_⟩
  · intro v
    unfold check_world_future_leaks
    rw [List.mem_flatMap]
    exact exists_congr fun m => and_congr_right fun _ => mem_leakEntry m v
  · intro m hm
    exact leaks_count (storeValues s) m hids hm
  · intro m ind h
    exact (find?_first _ _ _).mp h

/-- Active world record whose text leaks the future. -/
def memWorld : MemoryUnit :=
  { recBA with
    id := "w1"
    mem_type := "WM"
    subjects := ["world"]
    fact_text := "The company will announce layoffs next month" }

/-- Store holding only `memWorld`. -/
def worldStore : SimpleMemoryStore := ⟨[], [("w1", memWorld)], 0⟩

/-- Witness for C7: the leaking world record is reported with marker
`"will"`. -/
theorem world_future_leak_reports_witness :
    (⟨"w1", memWorld.get_key, memWorld.chapter_start, memWorld.fact_text, "will"⟩ :
      LeakViolation) ∈ check_world_future_leaks worldStore :=
  ((world_future_leak_reports worldStore (by decide)).1 _).mpr
    ⟨memWorld, by decide, rfl, rfl, "will", by decide, rfl⟩

/-- Records of `l` landing in the bucket with the given key. -/
def relFilter (key : String) (l : List MemoryUnit) : List MemoryUnit :=
  l.filter (fun m => isICPair m && (relKeyOf m == key))

/-- One step of the `relationships`-building fold. -/
def relStep (gs : List RelGroup) (m : MemoryUnit) : List RelGroup :=
  if isICPair m then insertRel gs (relKeyOf m) (relPairOf m).1 (relPairOf m).2 m else gs

/-- Invariant tying the partially built `relationships` dict to the
prefix of records already folded over. -/
structure GInv (l : List MemoryUnit) (gs : List RelGroup) : Prop where
  mems_eq : ∀ g ∈ gs, g.mems = relFilter g.key l
  covers : ∀ m ∈ l, isICPair m = true → ∃ g ∈ gs, g.key = relKeyOf m
  keysNodup : (gs.map RelGroup.key).Nodup
  keyFmt : ∀ g ∈ gs, g.key = g.char1 ++ "::" ++ g.char2
  headPair : ∀ g ∈ gs, ∀ m0, g.mems.head? = some m0 →
    g.char1 = (relPairOf m0).1 ∧ g.char2 = (relPairOf m0).2
  nonempty : ∀ g ∈ gs, g.mems ≠ []

lemma buildRelationships_eq_foldl (l : List MemoryUnit) :
    buildRelationships l = l.foldl relStep [] := by
  unfold buildRelationships relStep
  rfl

lemma insertRel_not_mem : ∀ (gs : List RelGroup) (k c1 c2 : String) (m : MemoryUnit),
    k ∉ gs.map RelGroup.key → insertRel gs k c1 c2 m = gs ++ [⟨k, c1, c2, [m]⟩] := by
  intro gs
  induction gs with
  | nil => intro k c1 c2 m _; rfl
  | cons g rest ih =>
    intro k c1 c2 m hk
    rw [List.map_cons] at hk
    have h1 : g.key ≠ k := fun h => hk (by simp [h])
    unfold insertRel
    rw [if_neg (Ne.symm h1 ∘ Eq.symm)]
    rw [ih k c1 c2 m (fun h => hk (by simp [h]))]
    rfl

lemma map_if_id {α : Type} (p : α → Prop) [DecidablePred p] (f : α → α) :
    ∀ l : List α, (∀ x ∈ l, ¬ p x) → l.map (fun x => if p x then f x else x) = l := by
  intro l
  induction l with
  | nil => intro _; rfl
  | cons a l ih =>
    intro h
    rw [List.map_cons, if_neg (h a (by simp)), ih (fun x hx => h x (by simp [hx]))]

lemma insertRel_mem : ∀ (gs : List RelGroup) (k c1 c2 : String) (m : MemoryUnit),
    (gs.map RelGroup.key).Nodup → k ∈ gs.map RelGroup.key →
    insertRel gs k c1 c2 m =
      gs.map (fun g => if g.key = k then
        ⟨g.key, g.char1, g.char2, g.mems ++ [m]⟩ else g) := by
  intro gs
  induction gs with
  | nil => intro k c1 c2 m _ hk; cases hk
  | cons g rest ih =>
    intro k c1 c2 m hnd hk
    rw [List.map_cons, List.nodup_cons] at hnd
    by_cases hg : g.key = k
    · unfold insertRel
      rw [if_pos hg, List.map_cons, if_pos hg]
      have hrest : rest.map (fun g2 => if g2.key = k then
          (⟨g2.key, g2.char1, g2.char2, g2.mems ++ [m]⟩ : RelGroup) else g2) = rest := by
        refine map_if_id (fun g2 => g2.key = k) _ rest ?_
        intro g2 hg2 h2
        exact hnd.1 (hg ▸ h2 ▸ List.mem_map_of_mem RelGroup.key hg2)
      rw [hrest]
    · have hk2 : k ∈ rest.map RelGroup.key := by
        rcases List.mem_cons.mp hk with h | h
        · exact absurd h.symm hg
        · exact h
      unfold insertRel
      rw [if_neg hg, List.map_cons, if_neg hg, ih k c1 c2 m hnd.2 hk2]

lemma mem_relFilter {key : String} {l : List MemoryUnit} {m : MemoryUnit} :
    m ∈ relFilter key l ↔ m ∈ l ∧ isICPair m = true ∧ relKeyOf m = key := by
  unfold relFilter
  rw [List.mem_filter, Bool.and_eq_true, beq_iff_eq]

lemma relFilter_append_one (key : String) (l : List MemoryUnit) (m : MemoryUnit) :
    relFilter key (l ++ [m]) =
      relFilter key l ++ (if isICPair m && (relKeyOf m == key) then [m] else []) := by
  unfold relFilter
  rw [List.filter_append]
  congr 1
  by_cases h : (isICPair m && (relKeyOf m == key)) = true
  · simp [h]
  · simp [h]

lemma relStep_GInv {l : List MemoryUnit} {gs : List RelGroup} {m : MemoryUnit}
    (h : GInv l gs) : GInv (l ++ [m]) (relStep gs m) := by
  unfold relStep
  by_cases hic : isICPair m = true
  case neg =>
    rw [if_neg hic]
    refine ⟨?_, ?_, h.keysNodup, h.keyFmt, h.headPair, h.nonempty⟩
    · intro g hg
      rw [relFilter_append_one, if_neg (by simp [hic]), List.append_nil]
      exact h.mems_eq g hg
    · intro m2 hm2 hic2
      rcases List.mem_append.mp hm2 with hm2 | hm2
      · exact h.covers m2 hm2 hic2
      · rw [List.mem_singleton.mp hm2] at hic2
        exact absurd hic2 hic
  case pos =>
    rw [if_pos hic]
    by_cases hk : relKeyOf m ∈ gs.map RelGroup.key
    · rw [insertRel_mem gs _ _ _ m h.keysNodup hk]
      have hkeys : (gs.map (fun g => if g.key = relKeyOf m then
          (⟨g.key, g.char1, g.char2, g.mems ++ [m]⟩ : RelGroup) else g)).map RelGroup.key
          = gs.map RelGroup.key := by
        rw [List.map_map]
        apply List.map_congr_left
        intro g _
        by_cases hg : g.key = relKeyOf m
        · simp [hg]
        · simp [hg]
      refine ⟨?_, ?_, ?_, ?_, ?_, ?_⟩
      · intro g' hg'
        rcases List.mem_map.mp hg' with ⟨g, hg, rfl⟩
        by_cases hgk : g.key = relKeyOf m
        · rw [if_pos hgk]
          rw [relFilter_append_one, if_pos (by simp [hic, hgk])]
          rw [← h.mems_eq g hg]
        · rw [if_neg hgk]
          rw [relFilter_append_one, if_neg (by simp [hic]; exact fun hh => hgk hh.symm),
            List.append_nil]
          exact h.mems_eq g hg
      · intro m2 hm2 hic2
        have hkey : relKeyOf m2 ∈ (gs.map (fun g => if g.key = relKeyOf m then
            (⟨g.key, g.char1, g.char2, g.mems ++ [m]⟩ : RelGroup) else g)).map
            RelGroup.key := by
          rw [hkeys]
          rcases List.mem_append.mp hm2 with hm2 | hm2
          · rcases h.covers m2 hm2 hic2 with ⟨g, hg, hgk⟩
            exact hgk ▸ List.mem_map_of_mem RelGroup.key hg
          · rw [List.mem_singleton.mp hm2]
            exact hk
        rcases List.mem_map.mp hkey with ⟨g', hg', hgk'⟩
        exact ⟨g', hg', hgk'⟩
      · rw [hkeys]; exact h.keysNodup
      · intro g' hg'
        rcases List.mem_map.mp hg' with ⟨g, hg, rfl⟩
        by_cases hgk : g.key = relKeyOf m
        · rw [if_pos hgk]; exact h.keyFmt g hg
        · rw [if_neg hgk]; exact h.keyFmt g hg
      · intro g' hg' m0 hm0
        rcases List.mem_map.mp hg' with ⟨g, hg, rfl⟩
        by_cases hgk : g.key = relKeyOf m
        · rw [if_pos hgk] at hm0 ⊢
          have hne := h.nonempty g hg
          cases hmm : g.mems with
          | nil => exact absurd hmm hne
          | cons x xs =>
            rw [hmm] at hm0
            have hx : x = m0 := by
              have : (x :: (xs ++ [m])).head? = some m0 := by
                simpa using hm0
              simpa using this
            have := h.headPair g hg x (by rw [hmm]; rfl)
            exact hx ▸ this
        · rw [if_neg hgk] at hm0 ⊢
          exact h.headPair g hg m0 hm0
      · intro g' hg'
        rcases List.mem_map.mp hg' with ⟨g, hg, rfl⟩
        by_cases hgk : g.key = relKeyOf m
        · rw [if_pos hgk]; simp
        · rw [if_neg hgk]; exact h.nonempty g hg
    · rw [insertRel_not_mem gs _ _ _ m hk]
      have hfilter_nil : relFilter (relKeyOf m) l = [] := by
        unfold relFilter
        rw [List.filter_eq_nil_iff]
        intro m0 hm0 hb
        rw [Bool.and_eq_true, beq_iff_eq] at hb
        rcases h.covers m0 hm0 hb.1 with ⟨g, hg, hgk⟩
        exact hk (hb.2 ▸ hgk ▸ List.mem_map_of_mem RelGroup.key hg)
      refine ⟨?_, ?_, ?_, ?_, ?_, ?_⟩
      · intro g' hg'
        rcases List.mem_append.mp hg' with hg' | hg'
        · rw [relFilter_append_one, if_neg, List.append_nil]
          · exact h.mems_eq g' hg'
          · simp only [hic, Bool.true_and, beq_iff_eq]
            intro hh
            exact hk (hh ▸ List.mem_map_of_mem RelGroup.key hg')
        · rw [List.mem_singleton.mp hg']
          rw [relFilter_append_one, if_pos (by simp [hic]), hfilter_nil]
          rfl
      · intro m2 hm2 hic2
        rcases List.mem_append.mp hm2 with hm2 | hm2
        · rcases h.covers m2 hm2 hic2 with ⟨g, hg, hgk⟩
          exact ⟨g, by simp [hg], hgk⟩
        · rw [List.mem_singleton.mp hm2]
          exact ⟨⟨relKeyOf m, (relPairOf m).1, (relPairOf m).2, [m]⟩, by simp, rfl⟩
      · rw [List.map_append]
        rw [List.nodup_append]
        exact ⟨h.keysNodup, List.nodup_singleton _, by simpa using fun hmem => hk hmem⟩
      · intro g' hg'
        rcases List.mem_append.mp hg' with hg' | hg'
        · exact h.keyFmt g' hg'
        · rw [List.mem_singleton.mp hg']
          rfl
      · intro g' hg' m0 hm0
        rcases List.mem_append.mp hg' with hg' | hg'
        · exact h.headPair g' hg' m0 hm0
        · rw [List.mem_singleton.mp hg'] at hm0 ⊢
          have : m = m0 := by simpa using hm0
          exact ⟨congrArg (fun x => (relPairOf x).1) this,
            congrArg (fun x => (relPairOf x).2) this⟩
      · intro g' hg'
        rcases List.mem_append.mp hg' with hg' | hg'
        · exact h.nonempty g' hg'
        · rw [List.mem_singleton.mp hg']
          simp

lemma buildRelationships_GInv (l : List MemoryUnit) : GInv l (buildRelationships l) := by
  rw [buildRelationships_eq_foldl]
  induction l using List.reverseRecOn with
  | nil =>
    exact ⟨fun g hg => absurd hg (List.not_mem_nil g), fun m hm => absurd hm
      (List.not_mem_nil m), List.nodup_nil, fun g hg => absurd hg (List.not_mem_nil g),
      fun g hg => absurd hg (List.not_mem_nil g), fun g hg => absurd hg (List.not_mem_nil g)⟩
  | append_singleton l m ih =>
    rw [List.foldl_append]
    exact relStep_GInv ih

/-- Lone asymmetric inter-character record "sylvain trusts annette". -/
def memTrust : MemoryUnit :=
  { recBA with
    id := "t1"
    subjects := ["sylvain", "annette"]
    fact_text := "sylvain trusts annette" }

/-- Store holding only `memTrust`. -/
def trustStore : SimpleMemoryStore := ⟨[], [("t1", memTrust)], 0⟩

/-- A second record for the same unordered pair, listed in reverse
order. -/
def memTrustBack : MemoryUnit :=
  { recBA with
    id := "t2"
    subjects := ["annette", "sylvain"]
    fact_text := "annette relies on sylvain" }

/-- Store holding `memTrust` together with a reverse-pair record. -/
def trustStore2 : SimpleMemoryStore :=
  ⟨[], [("t1", memTrust), ("t2", memTrustBack)], 0⟩

/-- C6: a symmetry report is produced exactly for a record `m` that is
the only grouped record of its unordered subject pair (active `IC` with
two subjects), whose lowercased text contains an asymmetric term, and
such that no grouped record exists whose key is the pair in reverse
order.  In particular the lone record "sylvain trusts annette" is
flagged, and nothing is flagged once a second record exists for the
pair. -/
theorem symmetry_violation_reports :
    (∀ (s : SimpleMemoryStore) (v : SymViolation),
      v ∈ check_symmetry_violations s ↔
        ∃ m ∈ storeValues s, isICPair m = true ∧
          relFilter (relKeyOf m) (storeValues s) = [m] ∧
          firstAsymIndicator m = some v.asymmetric_indicator ∧
          (¬ ∃ m2 ∈ storeValues s, isICPair m2 = true ∧
              relKeyOf m2 = (relPairOf m).2 ++ "::" ++ (relPairOf m).1) ∧
          v = ⟨m.id, relKeyOf m, (relPairOf m).1, (relPairOf m).2, m.fact_text,
            v.asymmetric_indicator⟩) ∧
    check_symmetry_violations trustStore =
      [⟨"t1", "annette::sylvain", "annette", "sylvain", "sylvain trusts annette",
        "trusts"⟩] ∧
    check_symmetry_violations trustStore2 = [] := by
  refine ⟨?_, by decide, by decide⟩
  intro s v
  have hInv := buildRelationships_GInv (storeValues s)
  show v ∈ (buildRelationships (storeValues s)).flatMap
    (symEntry (buildRelationships (storeValues s))) ↔ _
  rw [List.mem_flatMap]
  constructor
  · rintro ⟨g, hg, hv⟩
    unfold symEntry at hv
    split at hv
    case _ m hmems =>
      split at hv
      case _ ind hfa =>
        split at hv
        case _ hany => exact absurd hv (List.not_mem_nil v)
        case _ hany =>
          have hveq := List.mem_singleton.mp hv
          have hmmem : m ∈ relFilter g.key (storeValues s) := by
            rw [← hInv.mems_eq g hg, hmems]
            exact List.mem_singleton.mpr rfl
          rcases mem_relFilter.mp hmmem with ⟨hmv, hic, hkey⟩
          have hpair := hInv.headPair g hg m (by rw [hmems]; rfl)
          refine ⟨m, hmv, hic, ?_, ?_, ?_, ?_⟩
          · rw [hkey, ← hInv.mems_eq g hg, hmems]
          · rw [hveq]
            exact hfa
          · rintro ⟨m2, hm2, hic2, hkey2⟩
            apply hany
            rcases hInv.covers m2 hm2 hic2 with ⟨g2, hg2, hgk2⟩
            rw [List.any_eq_true]
            refine ⟨g2, hg2, ?_⟩
            rw [beq_iff_eq, hgk2, hkey2, hpair.1, hpair.2]
          · rw [hveq, ← hkey, ← hpair.1, ← hpair.2]
      case _ hfa => exact absurd hv (List.not_mem_nil v)
    case _ hmems => exact absurd hv (List.not_mem_nil v)
  · rintro ⟨m, hmv, hic, hfilter, hfa, hnorev, hveq⟩
    rcases hInv.covers m hmv hic with ⟨g, hg, hgk⟩
    have hmems : g.mems = [m] := by rw [hInv.mems_eq g hg, hgk, hfilter]
    have hpair := hInv.headPair g hg m (by rw [hmems]; rfl)
    refine ⟨g, hg, ?_⟩
    have hany : ((buildRelationships (storeValues s)).any
        (fun g2 => g2.key == g.char2 ++ "::" ++ g.char1)) = false := by
      rw [Bool.eq_false_iff]
      intro hany
      rcases List.any_eq_true.mp hany with ⟨g2, hg2, hbeq⟩
      rw [beq_iff_eq] at hbeq
      have hne := hInv.nonempty g2 hg2
      have hme := hInv.mems_eq g2 hg2
      cases hmm : g2.mems with
      | nil => exact hne hmm
      | cons m2 ms =>
        have hm2 : m2 ∈ relFilter g2.key (storeValues s) := by
          rw [← hme, hmm]
          simp
        rcases mem_relFilter.mp hm2 with ⟨hm2v, hic2, hkey2⟩
        apply hnorev
        refine ⟨m2, hm2v, hic2, ?_⟩
        rw [hkey2, hbeq, hpair.1, hpair.2]
    have hstep : symEntry (buildRelationships (storeValues s)) g =
        [⟨m.id, g.key, g.char1, g.char2, m.fact_text, v.asymmetric_indicator⟩] := by
      unfold symEntry
      rw [hmems]
      show (match firstAsymIndicator m with
        | some ind =>
          if ((buildRelationships (storeValues s)).any
              (fun g2 => g2.key == g.char2 ++ "::" ++ g.char1)) = true then []
          else [(⟨m.id, g.key, g.char1, g.char2, m.fact_text, ind⟩ : SymViolation)]
        | none => ([] : List SymViolation)) = _
      rw [hfa]
      show (if ((buildRelationships (storeValues s)).any
          (fun g2 => g2.key == g.char2 ++ "::" ++ g.char1)) = true then []
        else [(⟨m.id, g.key, g.char1, g.char2, m.fact_text, v.asymmetric_indicator⟩ :
          SymViolation)]) = _
      rw [if_neg (by rw [hany]; exact Bool.false_ne_true)]
    rw [hstep, hveq, ← hgk, ← hpair.1, ← hpair.2]
    exact List.mem_singleton.mpr rfl

lemma can_update_iff (a b : MemoryUnit) :
    a.can_update b = true ↔
      (a.get_key = b.get_key ∧ a.is_active = true ∧ a.chapter_start < b.chapter_start) := by
  unfold MemoryUnit.can_update
  by_cases h1 : a.get_key ≠ b.get_key
  · rw [if_pos h1]
    exact iff_of_false (by simp) (fun hh => h1 hh.1)
  · rw [if_neg h1]
    by_cases h2 : a.is_active = false
    · rw [if_pos h2]
      exact iff_of_false (by simp) (fun hh => by rw [hh.2.1] at h2; cases h2)
    · rw [if_neg h2]
      by_cases h3 : b.chapter_start ≤ a.chapter_start
      · rw [if_pos h3]
        exact iff_of_false (by simp) (fun hh => absurd hh.2.2 (not_lt.mpr h3))
      · rw [if_neg h3]
        exact iff_of_true rfl ⟨not_not.mp h1, by
          revert h2; cases a.is_active <;> simp, lt_of_not_le h3⟩

lemma mem_candidates_iff (s : SimpleMemoryStore) (memory ex : MemoryUnit) :
    ex ∈ s.find_all_candidate_memories memory ↔
      (ex ∈ storeValues s ∧ ex.get_key = memory.get_key ∧ ex.is_active = true ∧
        ex.chapter_start < memory.chapter_start) := by
  unfold SimpleMemoryStore.find_all_candidate_memories
  rw [List.mem_filter, Bool.and_eq_true, beq_iff_eq, can_update_iff]
  constructor
  · rintro ⟨hm, hk, _, ha, hc⟩
    exact ⟨hm, hk, ha, hc⟩
  · rintro ⟨hm, hk, ha, hc⟩
    exact ⟨hm, hk, hk, ha, hc⟩

lemma foldl_pickMax_mem : ∀ (l : List (MemoryUnit × ℚ)) (b : MemoryUnit × ℚ),
    l.foldl pickMax b = b ∨ l.foldl pickMax b ∈ l := by
  intro l
  induction l with
  | nil => intro b; left; rfl
  | cons x l ih =>
    intro b
    rw [List.foldl_cons]
    have hbx : pickMax b x = b ∨ pickMax b x = x := by
      unfold pickMax
      by_cases h : b.2 < x.2
      · right; rw [if_pos h]
      · left; rw [if_neg h]
    rcases ih (pickMax b x) with h | h
    · rcases hbx with h2 | h2
      · left; rw [h, h2]
      · right; rw [h, h2]; exact List.mem_cons_self x l
    · right; exact List.mem_cons_of_mem x h

lemma foldl_pickMax_ge : ∀ (l : List (MemoryUnit × ℚ)) (b : MemoryUnit × ℚ),
    b.2 ≤ (l.foldl pickMax b).2 ∧ ∀ x ∈ l, x.2 ≤ (l.foldl pickMax b).2 := by
  intro l
  induction l with
  | nil => intro b; exact ⟨le_refl _, fun x hx => absurd hx (List.not_mem_nil x)⟩
  | cons x l ih =>
    intro b
    rw [List.foldl_cons]
    have hb : b.2 ≤ (pickMax b x).2 := by
      unfold pickMax
      by_cases h : b.2 < x.2
      · rw [if_pos h]; exact le_of_lt h
      · rw [if_neg h]
    have hx : x.2 ≤ (pickMax b x).2 := by
      unfold pickMax
      by_cases h : b.2 < x.2
      · rw [if_pos h]
      · rw [if_neg h]; exact not_lt.mp h
    refine ⟨hb.trans (ih (pickMax b x)).1, ?_⟩
    intro y hy
    rcases List.mem_cons.mp hy with rfl | hy
    · exact hx.trans (ih (pickMax b y)).1
    · exact (ih (pickMax b x)).2 y hy

lemma find_best_eq_none_iff (s : SimpleMemoryStore) (memory : MemoryUnit) (ms : ℚ) :
    s.find_best_update_candidate memory ms = none ↔
      ∀ ex ∈ s.find_all_candidate_memories memory, ex.get_update_score memory < ms := by
  unfold SimpleMemoryStore.find_best_update_candidate
  split
  case _ heq =>
    refine iff_of_true rfl ?_
    intro ex hex
    by_contra hge
    have hmem : (ex, ex.get_update_score memory) ∈
        ((s.find_all_candidate_memories memory).map
          (fun c => (c, c.get_update_score memory))).filter (fun p => ms ≤ p.2) := by
      rw [List.mem_filter]
      exact ⟨List.mem_map_of_mem _ hex, by simpa using not_lt.mp hge⟩
    rw [heq] at hmem
    exact absurd hmem (List.not_mem_nil _)
  case _ first rest heq =>
    refine iff_of_false (by simp) ?_
    intro hall
    have hfirst : first ∈ ((s.find_all_candidate_memories memory).map
        (fun c => (c, c.get_update_score memory))).filter (fun p => ms ≤ p.2) := by
      rw [heq]
      exact List.mem_cons_self first rest
    rw [List.mem_filter] at hfirst
    rcases List.mem_map.mp hfirst.1 with ⟨c, hc, rfl⟩
    have := hall c hc
    have h2 : ms ≤ c.get_update_score memory := by simpa using hfirst.2
    exact absurd h2 (not_le.mpr this)

lemma find_best_eq_some (s : SimpleMemoryStore) (memory : MemoryUnit) (ms : ℚ)
    (e : MemoryUnit) (sc : ℚ)
    (h : s.find_best_update_candidate memory ms = some (e, sc)) :
    e ∈ s.find_all_candidate_memories memory ∧ sc = e.get_update_score memory ∧
    ms ≤ sc ∧
    ∀ c ∈ s.find_all_candidate_memories memory, c.get_update_score memory ≤ sc := by
  revert h
  unfold SimpleMemoryStore.find_best_update_candidate
  split
  case _ heq => intro h; cases h
  case _ first rest heq =>
    intro h
    injection h with h
    have hmem : rest.foldl pickMax first ∈ first :: rest := by
      rcases foldl_pickMax_mem rest first with h2 | h2
      · rw [h2]; exact List.mem_cons_self first rest
      · exact List.mem_cons_of_mem first h2
    rw [h, ← heq, List.mem_filter] at hmem
    rcases List.mem_map.mp hmem.1 with ⟨c, hc, hce⟩
    have hc1 : c = e := congrArg Prod.fst hce
    have hc2 : c.get_update_score memory = sc := congrArg Prod.snd hce
    subst hc1
    have hms : ms ≤ sc := by
      have := hmem.2
      simp only [decide_eq_true_eq] at this
      exact this
    refine ⟨hc, hc2.symm, hms, ?_⟩
    intro c2 hc2mem
    by_cases hin : ms ≤ c2.get_update_score memory
    · have hmem2 : (c2, c2.get_update_score memory) ∈ first :: rest := by
        rw [← heq, List.mem_filter]
        exact ⟨List.mem_map_of_mem _ hc2mem, by simpa using hin⟩
      have hge := foldl_pickMax_ge rest first
      rcases List.mem_cons.mp hmem2 with hf | hr
      · have := hge.1
        rw [h, ← hf] at this
        exact this
      · have := hge.2 _ hr
        rw [h] at this
        exact this
    · have := not_le.mp hin
      have h2 : ms ≤ sc := hms
      exact le_of_lt (lt_of_lt_of_le this h2)

lemma smart_of_find_best_some {s : SimpleMemoryStore} {memory : MemoryUnit} {t : ℚ}
    {e : MemoryUnit} {sc : ℚ} (chapter : Int)
    (h : s.find_best_update_candidate memory t = some (e, sc)) :
    s.smart_update_or_create memory chapter t =
      ((s.update_existing_memory e memory chapter
          (if (4/5 : ℚ) < sc then "high_confidence_update"
           else if (3/5 : ℚ) < sc then "moderate_update"
           else "low_confidence_update")).1,
        SmartResult.updated (s.update_existing_memory e memory chapter
          (if (4/5 : ℚ) < sc then "high_confidence_update"
           else if (3/5 : ℚ) < sc then "moderate_update"
           else "low_confidence_update")).2 sc) := by
  unfold SimpleMemoryStore.smart_update_or_create
  rw [h]

lemma smart_of_find_best_none {s : SimpleMemoryStore} {memory : MemoryUnit} {t : ℚ}
    (chapter : Int) (h : s.find_best_update_candidate memory t = none) :
    s.smart_update_or_create memory chapter t =
      ((s.add_new_memory memory chapter).1,
        SmartResult.created (s.add_new_memory memory chapter).2) := by
  unfold SimpleMemoryStore.smart_update_or_create
  rw [h]

/-- C3: the resolver considers exactly the active stored records sharing
the candidate's canonical key that start strictly earlier; each candidate
is scored by the stated formula clamped to `[0, 1]` (given a nonnegative
candidate confidence); `smart_update_or_create` supersedes exactly when
some candidate's score reaches the threshold (default 0.6), the
superseded record attains the maximum score, and otherwise a new record
is created. -/
theorem update_resolution_policy (s : SimpleMemoryStore) (memory : MemoryUnit)
    (chapter : Int) (t : ℚ) :
    (∀ ex, ex ∈ s.find_all_candidate_memories memory ↔
      (ex ∈ storeValues s ∧ ex.get_key = memory.get_key ∧ ex.is_active = true ∧
        ex.chapter_start < memory.chapter_start)) ∧
    (∀ ex, ex ∈ s.find_all_candidate_memories memory → 0 ≤ memory.confidence →
      ex.get_update_score memory =
        max 0 (min 1 (memory.confidence * (3/10)
          + min (2/10) (((memory.chapter_start - ex.chapter_start : Int) : ℚ) * (5/100))
          + (if ex.confidence < memory.confidence then 2/10 else 0)
          + (if ex.chapter_start < memory.chapter_start - 5 then 1/10 else 0))) ∧
      0 ≤ ex.get_update_score memory ∧ ex.get_update_score memory ≤ 1) ∧
    ((∃ u sc, (s.smart_update_or_create memory chapter t).2 = SmartResult.updated u sc) ↔
      ∃ ex ∈ s.find_all_candidate_memories memory, t ≤ ex.get_update_score memory) ∧
    (∀ u sc, (s.smart_update_or_create memory chapter t).2 = SmartResult.updated u sc →
      ∃ ex ∈ s.find_all_candidate_memories memory,
        sc = ex.get_update_score memory ∧ t ≤ sc ∧
        (∀ c ∈ s.find_all_candidate_memories memory, c.get_update_score memory ≤ sc) ∧
        u.supersedes = some ex.id ∧ u.version = ex.version + 1) ∧
    (∀ m2, (s.smart_update_or_create memory chapter t).2 = SmartResult.created m2 →
      (∀ ex ∈ s.find_all_candidate_memories memory, ex.get_update_score memory < t) ∧
      m2 = (s.add_new_memory memory chapter).2) := by
  refine ⟨mem_candidates_iff s memory, ?_, ?_, ?_, ?_⟩
  · intro ex hex hconf
    have hcu : ex.can_update memory = true := by
      rw [can_update_iff]
      rcases (mem_candidates_iff s memory ex).mp hex with ⟨_, hk, ha, hc⟩
      exact ⟨hk, ha, hc⟩
    have hcs : ex.chapter_start < memory.chapter_start :=
      ((mem_candidates_iff s memory ex).mp hex).2.2.2
    have hscore : ex.get_update_score memory =
        min 1 (memory.confidence * (3/10)
          + min (2/10) (((memory.chapter_start - ex.chapter_start : Int) : ℚ) * (5/100))
          + (if ex.confidence < memory.confidence then 2/10 else 0)
          + (if ex.chapter_start < memory.chapter_start - 5 then 1/10 else 0)) := by
      unfold MemoryUnit.get_update_score
      rw [if_neg (by simp [hcu])]
    have hterm1 : (0:ℚ) ≤ memory.confidence * (3/10) := by
      apply mul_nonneg hconf
      norm_num
    have hterm2 : (0:ℚ) ≤ min (2/10)
        (((memory.chapter_start - ex.chapter_start : Int) : ℚ) * (5/100)) := by
      apply le_min
      · norm_num
      · apply mul_nonneg
        · have : (0:Int) ≤ memory.chapter_start - ex.chapter_start := by omega
          exact_mod_cast this
        · norm_num
    have hterm3 : (0:ℚ) ≤ (if ex.confidence < memory.confidence then (2:ℚ)/10 else 0) := by
      by_cases h : ex.confidence < memory.confidence
      · rw [if_pos h]; norm_num
      · rw [if_neg h]
    have hterm4 : (0:ℚ) ≤
        (if ex.chapter_start < memory.chapter_start - 5 then (1:ℚ)/10 else 0) := by
      by_cases h : ex.chapter_start < memory.chapter_start - 5
      · rw [if_pos h]; norm_num
      · rw [if_neg h]
    have hsum : (0:ℚ) ≤ memory.confidence * (3/10)
        + min (2/10) (((memory.chapter_start - ex.chapter_start : Int) : ℚ) * (5/100))
        + (if ex.confidence < memory.confidence then 2/10 else 0)
        + (if ex.chapter_start < memory.chapter_start - 5 then 1/10 else 0) := by
      have := add_nonneg (add_nonneg (add_nonneg hterm1 hterm2) hterm3) hterm4
      linarith
    refine ⟨?_, ?_, ?_⟩
    · rw [hscore, max_eq_right]
      exact le_min (by norm_num) hsum
    · rw [hscore]
      exact le_min (by norm_num) hsum
    · rw [hscore]
      exact min_le_left _ _
  · constructor
    · rintro ⟨u, sc, hu⟩
      cases hfb : s.find_best_update_candidate memory t with
      | none =>
        rw [smart_of_find_best_none chapter hfb] at hu
        cases hu
      | some p =>
        obtain ⟨e, sc0⟩ := p
        rcases find_best_eq_some s memory t e sc0 hfb with ⟨he, hsc, hts, -⟩
        exact ⟨e, he, hsc ▸ hts⟩
    · rintro ⟨ex, hex, ht⟩
      cases hfb : s.find_best_update_candidate memory t with
      | none =>
        have := (find_best_eq_none_iff s memory t).mp hfb ex hex
        exact absurd ht (not_le.mpr this)
      | some p =>
        obtain ⟨e, sc0⟩ := p
        rw [smart_of_find_best_some chapter hfb]
        exact ⟨_, sc0, rfl⟩
  · intro u sc hu
    cases hfb : s.find_best_update_candidate memory t with
    | none =>
      rw [smart_of_find_best_none chapter hfb] at hu
      cases hu
    | some p =>
      obtain ⟨e, sc0⟩ := p
      rw [smart_of_find_best_some chapter hfb] at hu
      injection hu with hu1 hu2
      rcases find_best_eq_some s memory t e sc0 hfb with ⟨he, hsc, hts, hmax⟩
      subst hu2
      refine ⟨e, he, hsc, hts, hmax, ?_, ?_⟩
      · rw [← hu1]
        rfl
      · rw [← hu1]
        rfl
  · intro m2 hm2
    cases hfb : s.find_best_update_candidate memory t with
    | some p =>
      obtain ⟨e, sc0⟩ := p
      rw [smart_of_find_best_some chapter hfb] at hm2
      cases hm2
    | none =>
      rw [smart_of_find_best_none chapter hfb] at hm2
      injection hm2 with hm2
      exact ⟨(find_best_eq_none_iff s memory t).mp hfb, hm2.symm⟩

/-- Stored candidate used in the C3 witness (chapter 1, confidence 1). -/
def exCand : MemoryUnit := { recBA with id := "e1" }

/-- Incoming record used in the C3 witness (chapter 3, same key). -/
def memCand : MemoryUnit := { recBA with id := "n1", chapter_start := 3 }

/-- Store holding only `exCand`. -/
def candStore : SimpleMemoryStore := ⟨[], [("e1", exCand)], 0⟩

/-- Witness for C3 at a concrete store: the score of the stored candidate
is within the clamp. -/
theorem update_resolution_policy_witness : exCand.get_update_score memCand ≤ 1 :=
  (((update_resolution_policy candStore memCand 3 (6/10)).2.1 exCand
    (by decide)) (by decide)).2.2

/-- First of two identically scored stored candidates (chapter 1,
confidence 0). -/
def tieEx1 : MemoryUnit := { recBA with id := "x1", confidence := 0 }

/-- Second identically scored stored candidate. -/
def tieEx2 : MemoryUnit := { recBA with id := "x2", confidence := 0 }

/-- Incoming record scoring both tied candidates at exactly 0.6. -/
def tieMem : MemoryUnit := { recBA with id := "nm", chapter_start := 3 }

/-- Store holding the two tied candidates. -/
def tieStore : SimpleMemoryStore := ⟨[], [("x1", tieEx1), ("x2", tieEx2)], 0⟩

lemma tieEx1_score : tieEx1.get_update_score tieMem = 3/5 := by
  have hcu : tieEx1.can_update tieMem = true := by decide
  unfold MemoryUnit.get_update_score
  rw [if_neg (by simp [hcu])]
  show min 1 ((1:ℚ) * (3/10) + min (2/10) (((3 - 1 : Int) : ℚ) * (5/100))
    + (if (0:ℚ) < 1 then (2:ℚ)/10 else 0)
    + (if (1:Int) < 3 - 5 then (1:ℚ)/10 else 0)) = 3/5
  rw [if_pos (by norm_num : (0:ℚ) < 1), if_neg (by omega : ¬ ((1:Int) < 3 - 5))]
  norm_num [min_def]

lemma tieEx2_score : tieEx2.get_update_score tieMem = 3/5 := by
  have hcu : tieEx2.can_update tieMem = true := by decide
  unfold MemoryUnit.get_update_score
  rw [if_neg (by simp [hcu])]
  show min 1 ((1:ℚ) * (3/10) + min (2/10) (((3 - 1 : Int) : ℚ) * (5/100))
    + (if (0:ℚ) < 1 then (2:ℚ)/10 else 0)
    + (if (1:Int) < 3 - 5 then (1:ℚ)/10 else 0)) = 3/5
  rw [if_pos (by norm_num : (0:ℚ) < 1), if_neg (by omega : ¬ ((1:Int) < 3 - 5))]
  norm_num [min_def]

lemma tie_cands : tieStore.find_all_candidate_memories tieMem = [tieEx1, tieEx2] := by
  decide

lemma tie_find_best :
    tieStore.find_best_update_candidate tieMem (6/10) = some (tieEx1, 3/5) := by
  unfold SimpleMemoryStore.find_best_update_candidate
  rw [tie_cands, List.map_cons, List.map_cons, List.map_nil, tieEx1_score, tieEx2_score]
  rw [List.filter_cons_of_pos (by
    show decide ((6:ℚ)/10 ≤ (3:ℚ)/5) = true
    rw [decide_eq_true_eq]
    norm_num)]
  rw [List.filter_cons_of_pos (by
    show decide ((6:ℚ)/10 ≤ (3:ℚ)/5) = true
    rw [decide_eq_true_eq]
    norm_num)]
  rw [List.filter_nil]
  show some (List.foldl pickMax (tieEx1, 3/5) [(tieEx2, 3/5)]) = some (tieEx1, 3/5)
  rw [List.foldl_cons, List.foldl_nil]
  unfold pickMax
  rw [if_neg (lt_irrefl _)]

/-- C9 counterexample: with two candidates tied at the maximal score 0.6
(≥ the 0.6 threshold), `find_best_update_candidate` does not fail — no
`AmbiguousUpdateError` exists in the code — it silently returns the first
tied candidate in iteration order, and `smart_update_or_create` proceeds
to supersede it. -/
theorem ambiguous_tie_silently_resolved :
    tieEx1.get_update_score tieMem = tieEx2.get_update_score tieMem ∧
    tieEx1 ≠ tieEx2 ∧
    (6:ℚ)/10 ≤ tieEx1.get_update_score tieMem ∧
    tieStore.find_best_update_candidate tieMem (6/10) = some (tieEx1, 3/5) ∧
    ∃ u, (tieStore.smart_update_or_create tieMem 3 (6/10)).2 =
      SmartResult.updated u (3/5) ∧ u.supersedes = some "x1" := by
  refine ⟨?_, by decide, ?_, tie_find_best, ?_⟩
  · rw [tieEx1_score, tieEx2_score]
  · rw [tieEx1_score]
    norm_num
  · rw [smart_of_find_best_some 3 tie_find_best]
    exact ⟨_, rfl, rfl⟩

/-- C9 amended: when at least one candidate reaches `min_score`,
`find_best_update_candidate` silently returns a candidate attaining the
maximum score — under a tie, the first maximal one in iteration order —
rather than failing. -/
theorem tie_resolution_returns_max (s : SimpleMemoryStore) (memory : MemoryUnit) (ms : ℚ)
    (h : ∃ ex ∈ s.find_all_candidate_memories memory, ms ≤ ex.get_update_score memory) :
    ∃ e sc, s.find_best_update_candidate memory ms = some (e, sc) ∧
      e ∈ s.find_all_candidate_memories memory ∧ sc = e.get_update_score memory ∧
      ∀ c ∈ s.find_all_candidate_memories memory, c.get_update_score memory ≤ sc := by
  cases hfb : s.find_best_update_candidate memory ms with
  | none =>
    rcases h with ⟨ex, hex, hsc⟩
    have := (find_best_eq_none_iff s memory ms).mp hfb ex hex
    exact absurd hsc (not_le.mpr this)
  | some p =>
    obtain ⟨e, sc⟩ := p
    rcases find_best_eq_some s memory ms e sc hfb with ⟨he, hsc, -, hmax⟩
    exact ⟨e, sc, rfl, he, hsc, hmax⟩

/-- Witness for the amended C9 on the concrete tied store. -/
theorem tie_resolution_returns_max_witness :
    ∃ e sc, tieStore.find_best_update_candidate tieMem (6/10) = some (e, sc) ∧
      e ∈ tieStore.find_all_candidate_memories tieMem ∧
      sc = e.get_update_score tieMem ∧
      ∀ c ∈ tieStore.find_all_candidate_memories tieMem,
        c.get_update_score tieMem ≤ sc :=
  tie_resolution_returns_max tieStore tieMem (6/10)
    ⟨tieEx1, by decide, by rw [tieEx1_score]; norm_num⟩

/-- Per-record window/link condition of the invariant: a closed window
ends just before the successor named by `superseded_by`. -/
def endOk (s : SimpleMemoryStore) (m : MemoryUnit) : Prop :=
  ∀ e, m.chapter_end = some e → m.chapter_start ≤ e ∧
    ∃ sid succ, m.superseded_by = some sid ∧ lookupMemory s sid = some succ ∧
      e = succ.chapter_start - 1

/-- Store invariant maintained by the resolver operations: every closed
window satisfies `endOk`, dict keys coincide with record ids, every key
was issued by the fresh-id supply below the counter, and keys are
distinct. -/
def StoreInv (s : SimpleMemoryStore) : Prop :=
  (∀ p ∈ s.all_memories, endOk s p.2) ∧
  (∀ p ∈ s.all_memories, p.1 = p.2.id) ∧
  (∀ p ∈ s.all_memories, ∃ j, j < s.nextId ∧ p.1 = genId j) ∧
  (s.all_memories.map Prod.fst).Nodup

lemma genId_inj {i j : Nat} (h : genId i = genId j) : i = j := by
  have h2 : (genId i).data.length = (genId j).data.length := by rw [h]
  unfold genId at h2
  simp only [List.length_replicate] at h2
  omega

lemma find?_append_of_some {α : Type} (p : α → Bool) {l1 : List α} {x : α} (l2 : List α)
    (h : l1.find? p = some x) : (l1 ++ l2).find? p = some x := by
  induction l1 with
  | nil => cases h
  | cons a l ih =>
    by_cases hpa : p a = true
    · rw [List.find?_cons_of_pos _ hpa] at h
      rw [List.cons_append, List.find?_cons_of_pos _ hpa]
      exact h
    · rw [List.find?_cons_of_neg _ hpa] at h
      rw [List.cons_append, List.find?_cons_of_neg _ hpa]
      exact ih h

lemma find?_append_of_none {α : Type} (p : α → Bool) {l1 : List α} (l2 : List α)
    (h : l1.find? p = none) : (l1 ++ l2).find? p = l2.find? p := by
  induction l1 with
  | nil => rfl
  | cons a l ih =>
    by_cases hpa : p a = true
    · rw [List.find?_cons_of_pos _ hpa] at h
      cases h
    · rw [List.find?_cons_of_neg _ hpa] at h
      rw [List.cons_append, List.find?_cons_of_neg _ hpa]
      exact ih h

lemma replace_fst (a : String × MemoryUnit) (k : String) (v : MemoryUnit) :
    ((if a.1 == k then (a.1, v) else a)).1 = a.1 := by
  by_cases h : (a.1 == k) = true
  · rw [if_pos h]
  · rw [if_neg h]

lemma replaceValue_keys (l : List (String × MemoryUnit)) (k : String) (v : MemoryUnit) :
    (replaceValue l k v).map Prod.fst = l.map Prod.fst := by
  unfold replaceValue
  rw [List.map_map]
  apply List.map_congr_left
  intro p _
  exact replace_fst p k v

lemma find?_replaceValue (l : List (String × MemoryUnit)) (k : String) (v : MemoryUnit)
    (k' : String) :
    (replaceValue l k v).find? (fun p => p.1 == k') =
      (l.find? (fun p => p.1 == k')).map (fun p => if p.1 == k then (p.1, v) else p) := by
  induction l with
  | nil => rfl
  | cons a l ih =>
    simp only [replaceValue, List.map_cons, List.find?_cons, replace_fst] at ih ⊢
    cases hpa : (a.1 == k') with
    | true => rfl
    | false => exact ih

lemma insertOrReplace_fresh {l : List (String × MemoryUnit)} {k : String} {v : MemoryUnit}
    (h : ∀ p ∈ l, p.1 ≠ k) : insertOrReplace l k v = l ++ [(k, v)] := by
  unfold insertOrReplace
  rw [if_neg]
  intro hany
  rcases List.any_eq_true.mp hany with ⟨p, hp, hbeq⟩
  exact h p hp (eq_of_beq hbeq)

lemma storeInv_fresh {s : SimpleMemoryStore} (hin : StoreInv s) :
    ∀ p ∈ s.all_memories, p.1 ≠ genId s.nextId := by
  intro p hp h
  rcases hin.2.2.1 p hp with ⟨j, hj, hpj⟩
  have := genId_inj (hpj ▸ h : genId j = genId s.nextId)
  omega

lemma lookup_append_of_some {s : SimpleMemoryStore} {sid : String} {succ : MemoryUnit}
    (l2 : List (String × MemoryUnit)) (h : lookupMemory s sid = some succ) :
    ((s.all_memories ++ l2).find? (fun p => p.1 == sid)).map Prod.snd = some succ := by
  unfold lookupMemory at h
  rcases Option.map_eq_some'.mp h with ⟨q, hq, hq2⟩
  rw [find?_append_of_some _ l2 hq]
  exact congrArg some hq2

/-- The record inserted by `add_new_memory`, with its fresh id. -/
def addedRecord (memory : MemoryUnit) (chapter : Int) (fid : String) : MemoryUnit :=
  { memory with
    id := fid
    chapter_start := chapter
    provenance := { memory.provenance with chapter := chapter } }

lemma add_new_inv {s : SimpleMemoryStore} {memory : MemoryUnit} {chapter : Int}
    (hin : StoreInv s) (hce : memory.chapter_end = none) :
    StoreInv (s.add_new_memory memory chapter).1 := by
  have hfresh := storeInv_fresh hin
  obtain ⟨hI1, hI2, hI3, hI5⟩ := hin
  have hall : (s.add_new_memory memory chapter).1.all_memories
      = s.all_memories ++ [(genId s.nextId, addedRecord memory chapter (genId s.nextId))] :=
    insertOrReplace_fresh hfresh
  refine ⟨?_, ?_, ?_, ?_⟩
  · intro p hp
    rw [hall] at hp
    rcases List.mem_append.mp hp with hp | hp
    · intro e he
      rcases hI1 p hp e he with ⟨hcs, sid, succ, hsb, hlk, hsucc⟩
      refine ⟨hcs, sid, succ, hsb, ?_, hsucc⟩
      show lookupMemory (s.add_new_memory memory chapter).1 sid = some succ
      unfold lookupMemory
      rw [hall]
      exact lookup_append_of_some _ hlk
    · rw [List.mem_singleton.mp hp]
      intro e he
      rw [show (addedRecord memory chapter (genId s.nextId)).chapter_end
        = memory.chapter_end from rfl, hce] at he
      cases he
  · intro p hp
    rw [hall] at hp
    rcases List.mem_append.mp hp with hp | hp
    · exact hI2 p hp
    · rw [List.mem_singleton.mp hp]
      rfl
  · intro p hp
    rw [hall] at hp
    have hnext : (s.add_new_memory memory chapter).1.nextId = s.nextId + 1 := rfl
    rw [hnext]
    rcases List.mem_append.mp hp with hp | hp
    · rcases hI3 p hp with ⟨j, hj, hpj⟩
      exact ⟨j, by omega, hpj⟩
    · rw [List.mem_singleton.mp hp]
      exact ⟨s.nextId, by omega, rfl⟩
  · rw [hall, List.map_append, List.nodup_append]
    refine ⟨hI5, List.nodup_singleton _, ?_⟩
    intro a ha hb
    rcases List.mem_map.mp ha with ⟨p, hp, rfl⟩
    rw [List.map_singleton, List.mem_singleton] at hb
    exact hfresh p hp hb

lemma update_inv {s : SimpleMemoryStore} {existing memory : MemoryUnit} {chapter : Int}
    {reason : String} (hin : StoreInv s)
    (hex : ∃ q ∈ s.all_memories, q.2 = existing)
    (hcs : existing.chapter_start < chapter) :
    StoreInv (s.update_existing_memory existing memory chapter reason).1 := by
  have hfresh := storeInv_fresh hin
  obtain ⟨hI1, hI2, hI3, hI5⟩ := hin
  obtain ⟨qE, hqE, hqE2⟩ := hex
  have hkeyE : qE.1 = existing.id := by rw [hI2 qE hqE, hqE2]
  have hfindE : s.all_memories.find? (fun x => x.1 == existing.id) = some qE := by
    have h := find?_key_nodup hI5 hqE
    simp only [hkeyE] at h
    exact h
  have hfreshR : ∀ q ∈ replaceValue s.all_memories existing.id
      (supersedeRecords existing memory chapter reason (genId s.nextId)).1,
      q.1 ≠ genId s.nextId := by
    intro q hq
    rcases List.mem_map.mp hq with ⟨q0, hq0, rfl⟩
    rw [replace_fst]
    exact hfresh q0 hq0
  have hall : (s.update_existing_memory existing memory chapter reason).1.all_memories =
      replaceValue s.all_memories existing.id
        (supersedeRecords existing memory chapter reason (genId s.nextId)).1
      ++ [(genId s.nextId,
        (supersedeRecords existing memory chapter reason (genId s.nextId)).2)] :=
    insertOrReplace_fresh hfreshR
  have hlkfid : lookupMemory (s.update_existing_memory existing memory chapter reason).1
      (genId s.nextId) =
      some (supersedeRecords existing memory chapter reason (genId s.nextId)).2 := by
    unfold lookupMemory
    rw [hall]
    have hnone : (replaceValue s.all_memories existing.id
        (supersedeRecords existing memory chapter reason (genId s.nextId)).1).find?
        (fun p => p.1 == genId s.nextId) = none := by
      rw [List.find?_eq_none]
      intro q hq hbeq
      exact hfreshR q hq (eq_of_beq hbeq)
    rw [find?_append_of_none _ _ hnone]
    rw [List.find?_cons_of_pos _ (by rw [beq_iff_eq])]
    rfl
  have hlk : ∀ sid succ, lookupMemory s sid = some succ →
      ∃ succ', lookupMemory (s.update_existing_memory existing memory chapter reason).1
        sid = some succ' ∧ succ'.chapter_start = succ.chapter_start := by
    intro sid succ h
    unfold lookupMemory at h
    rcases Option.map_eq_some'.mp h with ⟨q, hq, hq2⟩
    have hfR := find?_replaceValue s.all_memories existing.id
      (supersedeRecords existing memory chapter reason (genId s.nextId)).1 sid
    rw [hq] at hfR
    refine ⟨(if q.1 == existing.id then (q.1,
      (supersedeRecords existing memory chapter reason (genId s.nextId)).1) else q).2,
      ?_, ?_⟩
    · unfold lookupMemory
      rw [hall, find?_append_of_some _ _ hfR]
      rfl
    · by_cases hqk : (q.1 == existing.id) = true
      · rw [if_pos hqk]
        have hq' : q = qE := by
          have h2 := List.find?_some hq
          have h3 : q.1 = sid := eq_of_beq h2
          have h4 : sid = existing.id := by
            rw [← h3]
            exact eq_of_beq hqk
          rw [h4, hfindE] at hq
          exact ((Option.some.injEq _ _).mp hq).symm
        show (supersedeRecords existing memory chapter reason
          (genId s.nextId)).1.chapter_start = succ.chapter_start
        rw [← hq2, hq']
        show existing.chapter_start = qE.2.chapter_start
        rw [hqE2]
      · rw [if_neg hqk]
        rw [hq2]
  refine ⟨?_, ?_, ?_, ?_⟩
  · intro p hp
    rw [hall] at hp
    rcases List.mem_append.mp hp with hp | hp
    · rcases List.mem_map.mp hp with ⟨q0, hq0, rfl⟩
      by_cases hq0k : (q0.1 == existing.id) = true
      · rw [if_pos hq0k]
        intro e he
        have he' : some (chapter - 1) = some e := he
        have hee : e = chapter - 1 := ((Option.some.injEq _ _).mp he').symm
        refine ⟨?_, genId s.nextId,
          (supersedeRecords existing memory chapter reason (genId s.nextId)).2,
          rfl, hlkfid, ?_⟩
        · show existing.chapter_start ≤ e
          omega
        · show e = chapter - 1
          exact hee
      · rw [if_neg hq0k]
        intro e he
        rcases hI1 q0 hq0 e he with ⟨hcs0, sid, succ, hsb, hlks, hsucc⟩
        rcases hlk sid succ hlks with ⟨succ', hlks', hcs'⟩
        refine ⟨hcs0, sid, succ', hsb, hlks', ?_⟩
        rw [hcs']
        exact hsucc
    · rw [List.mem_singleton.mp hp]
      intro e he
      cases he
  · intro p hp
    rw [hall] at hp
    rcases List.mem_append.mp hp with hp | hp
    · rcases List.mem_map.mp hp with ⟨q0, hq0, rfl⟩
      by_cases hq0k : (q0.1 == existing.id) = true
      · rw [if_pos hq0k]
        exact eq_of_beq hq0k
      · rw [if_neg hq0k]
        exact hI2 q0 hq0
    · rw [List.mem_singleton.mp hp]
      rfl
  · intro p hp
    rw [hall] at hp
    have hnext : (s.update_existing_memory existing memory chapter reason).1.nextId
        = s.nextId + 1 := rfl
    rw [hnext]
    rcases List.mem_append.mp hp with hp | hp
    · rcases List.mem_map.mp hp with ⟨q0, hq0, rfl⟩
      rcases hI3 q0 hq0 with ⟨j, hj, hpj⟩
      refine ⟨j, by omega, ?_⟩
      rw [replace_fst]
      exact hpj
    · rw [List.mem_singleton.mp hp]
      exact ⟨s.nextId, by omega, rfl⟩
  · rw [hall, List.map_append, List.nodup_append, replaceValue_keys]
    refine ⟨hI5, List.nodup_singleton _, ?_⟩
    intro a ha hb
    rcases List.mem_map.mp ha with ⟨p, hp, rfl⟩
    rw [List.map_singleton, List.mem_singleton] at hb
    exact hfresh p hp hb

lemma smart_inv {s : SimpleMemoryStore} {memory : MemoryUnit} {chapter : Int} {t : ℚ}
    (hin : StoreInv s) (hchap : memory.chapter_start = chapter)
    (hce : memory.chapter_end = none) :
    StoreInv (s.smart_update_or_create memory chapter t).1 := by
  cases hfb : s.find_best_update_candidate memory t with
  | none =>
    rw [smart_of_find_best_none chapter hfb]
    exact add_new_inv hin hce
  | some p =>
    obtain ⟨e, sc⟩ := p
    rw [smart_of_find_best_some chapter hfb]
    rcases find_best_eq_some s memory t e sc hfb with ⟨he, -, -, -⟩
    rcases (mem_candidates_iff s memory e).mp he with ⟨hev, -, -, hecs⟩
    rcases List.mem_map.mp hev with ⟨q, hq, hq2⟩
    exact update_inv hin ⟨q, hq, hq2⟩ (hchap ▸ hecs)

lemma emptyStore_inv : StoreInv emptyStore :=
  ⟨fun p hp => absurd hp (List.not_mem_nil p), fun p hp => absurd hp (List.not_mem_nil p),
    fun p hp => absurd hp (List.not_mem_nil p), List.nodup_nil⟩

lemma runOps_inv : ∀ (ops : List (MemoryUnit × Int × ℚ)) (s : SimpleMemoryStore),
    StoreInv s → (∀ op ∈ ops, op.1.chapter_start = op.2.1 ∧ op.1.chapter_end = none) →
    StoreInv (runOps ops s) := by
  intro ops
  induction ops with
  | nil => intro s hs _; exact hs
  | cons op ops ih =>
    intro s hs hops
    show StoreInv (runOps ops (s.smart_update_or_create op.1 op.2.1 op.2.2).1)
    exact ih _ (smart_inv hs (hops op (List.mem_cons_self op ops)).1
        (hops op (List.mem_cons_self op ops)).2)
      (fun o ho => hops o (List.mem_cons_of_mem op ho))

/-- C5 amended: for every sequence of resolver operations
(`smart_update_or_create`) from the empty store in which each call passes
`chapter` equal to the candidate's `chapter_start` and a candidate with an
open window (`chapter_end = none`) — as every in-repo caller does — every
record whose `chapter_end` has been set satisfies
`chapter_start ≤ chapter_end`, and its `chapter_end` equals
`successor.chapter_start - 1` for the record its `superseded_by` names.
Without the `chapter = chapter_start` restriction the bound fails, since
`update_existing_memory` never checks `chapter` against the superseded
record's `chapter_start`. -/
theorem chapter_window_invariant (ops : List (MemoryUnit × Int × ℚ))
    (hops : ∀ op ∈ ops, op.1.chapter_start = op.2.1 ∧ op.1.chapter_end = none) :
    ∀ p ∈ (runOps ops emptyStore).all_memories, ∀ e, p.2.chapter_end = some e →
      p.2.chapter_start ≤ e ∧
      ∃ sid succ, p.2.superseded_by = some sid ∧
        lookupMemory (runOps ops emptyStore) sid = some succ ∧
        e = succ.chapter_start - 1 :=
  fun p hp => (runOps_inv ops emptyStore emptyStore_inv hops).1 p hp

/-- First operation of the C5 witness batch (creates at chapter 1,
confidence 0). -/
def okM1 : MemoryUnit := { recBA with id := "o1", confidence := 0 }

/-- Second operation of the C5 witness batch (same key, supersedes at
chapter 3, passing `chapter = chapter_start`). -/
def okM2 : MemoryUnit := { recBA with id := "o2", chapter_start := 3 }

/-- The C5 witness batch: a creation followed by a supersession, each call
passing `chapter = chapter_start`. -/
def okOps : List (MemoryUnit × Int × ℚ) := [(okM1, 1, 6/10), (okM2, 3, 6/10)]

/-- Store after the first witness operation. -/
def okS1 : SimpleMemoryStore := (emptyStore.add_new_memory okM1 1).1

/-- Record created by the first witness operation. -/
def okRec1 : MemoryUnit := (emptyStore.add_new_memory okM1 1).2

/-- The record superseded by the witness batch, with its closed window. -/
def okBad : MemoryUnit :=
  { recBA with
    id := genId 0
    confidence := 0
    provenance := ⟨1, "story", "t0"⟩
    is_active := false
    chapter_end := some 2
    superseded_by := some (genId 1) }

lemma ok_fb1 : emptyStore.find_best_update_candidate okM1 (6/10) = none := by decide

lemma ok_run1 : runOps okOps emptyStore =
    (okS1.smart_update_or_create okM2 3 (6/10)).1 := by
  show ((emptyStore.smart_update_or_create okM1 1 (6/10)).1.smart_update_or_create
    okM2 3 (6/10)).1 = _
  rw [smart_of_find_best_none 1 ok_fb1]
  rfl

lemma okRec1_score : okRec1.get_update_score okM2 = 3/5 := by
  have hcu : okRec1.can_update okM2 = true := by decide
  unfold MemoryUnit.get_update_score
  rw [if_neg (by simp [hcu])]
  show min 1 ((1:ℚ) * (3/10) + min (2/10) (((3 - 1 : Int) : ℚ) * (5/100))
    + (if (0:ℚ) < 1 then (2:ℚ)/10 else 0)
    + (if (1:Int) < 3 - 5 then (1:ℚ)/10 else 0)) = 3/5
  rw [if_pos (by norm_num : (0:ℚ) < 1), if_neg (by omega : ¬ ((1:Int) < 3 - 5))]
  norm_num [min_def]

lemma ok_cands : okS1.find_all_candidate_memories okM2 = [okRec1] := by decide

lemma ok_fb2 : okS1.find_best_update_candidate okM2 (6/10) = some (okRec1, 3/5) := by
  unfold SimpleMemoryStore.find_best_update_candidate
  rw [ok_cands, List.map_cons, List.map_nil, okRec1_score]
  rw [List.filter_cons_of_pos (by
    show decide ((6:ℚ)/10 ≤ (3:ℚ)/5) = true
    rw [decide_eq_true_eq]
    norm_num)]
  rw [List.filter_nil]
  rfl

lemma ok_run : runOps okOps emptyStore =
    (okS1.update_existing_memory okRec1 okM2 3 "low_confidence_update").1 := by
  rw [ok_run1, smart_of_find_best_some 3 ok_fb2]
  have hreason : (if (4:ℚ)/5 < 3/5 then "high_confidence_update"
      else if (3:ℚ)/5 < 3/5 then "moderate_update" else "low_confidence_update")
      = "low_confidence_update" := by
    rw [if_neg (by norm_num), if_neg (by norm_num)]
  rw [hreason]

/-- Witness for the amended C5: in the concrete two-operation batch the
superseded record's window closes at 2, one chapter before its successor
opens. -/
theorem chapter_window_invariant_witness :
    okBad.chapter_start ≤ 2 ∧
    ∃ sid succ, okBad.superseded_by = some sid ∧
      lookupMemory (runOps okOps emptyStore) sid = some succ ∧
      (2:Int) = succ.chapter_start - 1 :=
  chapter_window_invariant okOps (by decide) (genId 0, okBad)
    (by rw [ok_run]; decide) 2 rfl

/-- First operation of the C5 counterexample batch (created at chapter 5,
confidence 0). -/
def cexA : MemoryUnit := { recBA with id := "ca", confidence := 0 }

/-- Second operation of the C5 counterexample batch: its own
`chapter_start` is 10, but it is submitted with `chapter = 2`. -/
def cexB : MemoryUnit := { recBA with id := "cb", chapter_start := 10 }

/-- The C5 counterexample batch. -/
def cexOps : List (MemoryUnit × Int × ℚ) := [(cexA, 5, 6/10), (cexB, 2, 6/10)]

/-- Store after the first counterexample operation. -/
def cexS1 : SimpleMemoryStore := (emptyStore.add_new_memory cexA 5).1

/-- Record created by the first counterexample operation. -/
def cexM1 : MemoryUnit := (emptyStore.add_new_memory cexA 5).2

/-- The record left with `chapter_end = 1 < chapter_start = 5` by the
counterexample batch. -/
def cexBad : MemoryUnit :=
  { cexA with
    id := genId 0
    chapter_start := 5
    provenance := ⟨5, "story", "t0"⟩
    is_active := false
    chapter_end := some 1
    superseded_by := some (genId 1) }

lemma cex_fb1 : emptyStore.find_best_update_candidate cexA (6/10) = none := by decide

lemma cex_run1 : runOps cexOps emptyStore =
    (cexS1.smart_update_or_create cexB 2 (6/10)).1 := by
  show ((emptyStore.smart_update_or_create cexA 5 (6/10)).1.smart_update_or_create
    cexB 2 (6/10)).1 = _
  rw [smart_of_find_best_none 5 cex_fb1]
  rfl

lemma cexM1_score : cexM1.get_update_score cexB = 7/10 := by
  have hcu : cexM1.can_update cexB = true := by decide
  unfold MemoryUnit.get_update_score
  rw [if_neg (by simp [hcu])]
  show min 1 ((1:ℚ) * (3/10) + min (2/10) (((10 - 5 : Int) : ℚ) * (5/100))
    + (if (0:ℚ) < 1 then (2:ℚ)/10 else 0)
    + (if (5:Int) < 10 - 5 then (1:ℚ)/10 else 0)) = 7/10
  rw [if_pos (by norm_num : (0:ℚ) < 1), if_neg (by omega : ¬ ((5:Int) < 10 - 5))]
  norm_num [min_def]

lemma cex_cands : cexS1.find_all_candidate_memories cexB = [cexM1] := by decide

lemma cex_fb2 : cexS1.find_best_update_candidate cexB (6/10) = some (cexM1, 7/10) := by
  unfold SimpleMemoryStore.find_best_update_candidate
  rw [cex_cands, List.map_cons, List.map_nil, cexM1_score]
  rw [List.filter_cons_of_pos (by
    show decide ((6:ℚ)/10 ≤ (7:ℚ)/10) = true
    rw [decide_eq_true_eq]
    norm_num)]
  rw [List.filter_nil]
  rfl

lemma cex_run : runOps cexOps emptyStore =
    (cexS1.update_existing_memory cexM1 cexB 2 "moderate_update").1 := by
  rw [cex_run1, smart_of_find_best_some 2 cex_fb2]
  have hreason : (if (4:ℚ)/5 < 7/10 then "high_confidence_update"
      else if (3:ℚ)/5 < 7/10 then "moderate_update" else "low_confidence_update")
      = "moderate_update" := by
    rw [if_neg (by norm_num), if_pos (by norm_num)]
  rw [hreason]

/-- C5 counterexample: the claim fails for arbitrary resolver-operation
sequences — submitting a candidate whose `chapter_start` (10) exceeds the
`chapter` argument (2) supersedes a record created at chapter 5 and
closes its window at `chapter_end = 1 < chapter_start = 5`, because
`update_existing_memory` never checks `chapter` against the superseded
record's `chapter_start`. -/
theorem chapter_window_invariant_cex :
    ∃ p ∈ (runOps cexOps emptyStore).all_memories, ∃ e,
      p.2.chapter_end = some e ∧ e < p.2.chapter_start := by
  rw [cex_run]
  refine ⟨(genId 0, cexBad), ?_, 1, ?_, ?_⟩
  · decide
  · rfl
  · decide
